import Mathlib

/-!
# Verification of the nbsafety update/staleness propagation protocol

Shallow embedding of the core of `smacke/nbsafety`:

* `src/nbsafety/data_symbol.py` — `DataSymbol` (staleness bookkeeping,
  `is_stale`, `should_mark_stale`, `refresh`,
  `_propagate_refresh_to_namespace_parents`);
* `src/nbsafety/data_model/update_protocol.py` — `UpdateProtocol`
  (`__call__`, `_collect_updated_symbols`,
  `_propagate_staleness_to_deps`, `_propagate_staleness_to_namespace_parents`,
  `_propagate_staleness_to_namespace_children`, `_non_class_to_instance_children`);
* `src/nbsafety/tracing/trace_stmt.py` — `compute_rval_dependencies`.

Symbols and scopes are identified by natural-number ids.  The process-wide
state (`SafetyState`) packages the symbol table, the scope table, the
namespace registry `safety.namespaces`, the alias table `safety.aliases`,
the accumulated `safety.updated_symbols` set, the current value of the
cell counter (the "timestamp source" external collaborator), and the
configuration flag `no_stale_propagation_for_same_cell_definition`.

The Python traversals terminate through a seen-set over the finite heap of
`DataSymbol` objects.  The embedding makes the recursion structural on an
explicit fuel parameter and returns `none` when the fuel runs out; fuel
adequacy (for every finite symbol universe closed under the traversed
maps, some fuel makes the whole invocation succeed) is proved below and is
the formal counterpart of the seen-set termination argument.
-/

namespace NbSafety

/-- Embedding of the staleness-relevant fields of `DataSymbol`
(`data_symbol.py`).  `obj_id` is the identity of the currently bound
value, `cached_obj_id` the previously cached identity; `children` is the
dependency-children set (iterated in a fixed order). -/
structure DataSymbol where
  obj_id : Nat
  cached_obj_id : Nat
  containing_scope : Nat
  defined_cell_num : Nat
  required_cell_num : Nat
  fresher_ancestors : Finset Nat
  namespace_stale_symbols : Finset Nat
  disable_warnings : Bool
  children : List Nat
  deriving DecidableEq

/-- Embedding of the scope fields the protocol reads.  A namespace scope
has `is_namespace_scope = true`, carries the identity `obj_id` of the
container value it describes and `max_defined_timestamp`.
`cloned_from_obj_id` is the identity of the namespace this one was cloned
from (`cloned_from.obj_id` in `update_protocol.py`), if any.
`symbols_this_indentation` — Modelled from the spec: `scope.py` is not in
the sources; per the spec's namespace-child propagation, it enumerates the
direct members of the namespace at this indentation, excluding class-level
members (`all_data_symbols_this_indentation(exclude_class=True)`). -/
structure Scope where
  is_namespace_scope : Bool
  obj_id : Nat
  max_defined_timestamp : Nat
  cloned_from_obj_id : Option Nat
  symbols_this_indentation : List Nat
  deriving DecidableEq

/-- The process-wide state the protocol reads and mutates: symbol table,
scope table, `safety.namespaces` (identity → namespace scope id),
`safety.aliases` (identity → symbols currently bound to it),
`safety.updated_symbols`, the cell counter (timestamp source) and the
configuration flag consulted by `should_mark_stale`. -/
structure SafetyState where
  syms : Nat → DataSymbol
  scopes : Nat → Scope
  namespaces : Nat → Option Nat
  aliases : Nat → List Nat
  updated_symbols : Finset Nat
  cell_counter : Nat
  no_stale_propagation_for_same_cell_definition : Bool

/-- Point update of one symbol's record. -/
def SafetyState.modifySym (st : SafetyState) (i : Nat) (f : DataSymbol → DataSymbol) :
    SafetyState :=
  { st with syms := fun j => if j = i then f (st.syms i) else st.syms j }

/-- Point update of one scope's record. -/
def SafetyState.modifyScope (st : SafetyState) (i : Nat) (f : Scope → Scope) :
    SafetyState :=
  { st with scopes := fun j => if j = i then f (st.scopes i) else st.scopes j }

/-- Embedding of `DataSymbol.is_stale` (`data_symbol.py` lines 218–222): never stale
when `disable_warnings` is set; otherwise stale iff
`defined_cell_num < required_cell_num` or `namespace_stale_symbols` is
non-empty. -/
def DataSymbol.is_stale (d : DataSymbol) : Bool :=
  if d.disable_warnings then false
  else decide (d.defined_cell_num < d.required_cell_num) ||
    decide (0 < d.namespace_stale_symbols.card)

/-- Embedding of `DataSymbol.should_mark_stale` (`data_symbol.py` lines 224–231).
`selfId`/`updatedDepId` stand for the object identities used by the
Python `is` check. -/
def SafetyState.should_mark_stale (st : SafetyState) (selfId updatedDepId : Nat) : Bool :=
  if (st.syms selfId).disable_warnings then false
  else if updatedDepId = selfId then false
  else (!st.no_stale_propagation_for_same_cell_definition) ||
    decide ((st.syms updatedDepId).defined_cell_num ≠ (st.syms selfId).defined_cell_num)

/-- Embedding of `UpdateProtocol._non_class_to_instance_children` (`update_protocol.py`
lines 72–83): all dependency children of `dsym` when `dsym` is the
updated symbol; otherwise the children reached through a class→instance
clone edge (the child's namespace was cloned from `dsym`'s identity) are
filtered out. -/
def nonClassToInstanceChildren (st : SafetyState) (updatedSym dsym : Nat) : List Nat :=
  if updatedSym = dsym then (st.syms dsym).children
  else (st.syms dsym).children.filter fun child =>
    match st.namespaces (st.syms child).obj_id with
    | some scId =>
      match (st.scopes scId).cloned_from_obj_id with
      | some cf => decide (cf ≠ (st.syms dsym).obj_id)
      | none => true
    | none => true

/-- Call descriptors for the fueled embedding of
`UpdateProtocol._collect_updated_symbols`: `sym` is an invocation of the
method on one symbol, `outer` the loop over `aliases_to_consider`, and
`inner` the loop over the aliases of the containing namespace. -/
inductive CollectCall where
  | sym (dsym : Nat) (skipAliases : Bool)
  | outer (dsym : Nat) (xs : List Nat)
  | inner (dsym : Nat) (ys : List Nat)
  deriving DecidableEq

/-- Fueled embedding of `UpdateProtocol._collect_updated_symbols`
(`update_protocol.py` lines 38–56), threading the protocol's seen-set.
Returns `none` when the fuel runs out. -/
def collectRun : Nat → CollectCall → SafetyState → List Nat →
    Option (SafetyState × List Nat)
  | 0, _, _, _ => none
  | fuel + 1, .sym dsym skipAliases, st, seen =>
    let aliasesToConsider :=
      if skipAliases then [dsym] else st.aliases (st.syms dsym).obj_id
    collectRun fuel (.outer dsym aliasesToConsider) st seen
  | _ + 1, .outer _ [], st, seen => some (st, seen)
  | fuel + 1, .outer dsym (a :: rest), st, seen =>
    if a ∈ seen then collectRun fuel (.outer dsym rest) st seen
    else
      let seen' := a :: seen
      let csId := (st.syms a).containing_scope
      if (st.scopes csId).is_namespace_scope then
        let st' := st.modifyScope csId fun sc =>
          { sc with max_defined_timestamp := st.cell_counter }
        (collectRun fuel (.inner dsym (st'.aliases ((st'.scopes csId).obj_id))) st' seen').bind
          fun p => collectRun fuel (.outer dsym rest) p.1 p.2
      else collectRun fuel (.outer dsym rest) st seen'
  | _ + 1, .inner _ [], st, seen => some (st, seen)
  | fuel + 1, .inner dsym (b :: rest), st, seen =>
    let st' := st.modifySym b fun s =>
      { s with namespace_stale_symbols := s.namespace_stale_symbols.erase dsym }
    (collectRun fuel (.sym b false) st' seen).bind
      fun p => collectRun fuel (.inner dsym rest) p.1 p.2

/-- Call descriptors for the fueled embedding of the staleness
propagation pass: `deps`, `parents`, `children` correspond to
`_propagate_staleness_to_deps`, `_propagate_staleness_to_namespace_parents`
and `_propagate_staleness_to_namespace_children`; `depsList` is a loop
issuing `_propagate_staleness_to_deps` on each element, `parentsList` the
loop over the aliases of a member's containing namespace. -/
inductive StaleCall where
  | deps (dsym : Nat) (skipSeenCheck : Bool)
  | depsList (xs : List Nat)
  | parents (dsym : Nat) (skipSeenCheck : Bool)
  | parentsList (dsym : Nat) (xs : List Nat)
  | children (dsym : Nat) (skipSeenCheck : Bool)
  deriving DecidableEq

/-- Fueled embedding of the staleness-propagation recursion of
`UpdateProtocol` (`update_protocol.py` lines 58–108), with `updatedSym`
the symbol the whole round was invoked on. -/
def staleRun (updatedSym : Nat) : Nat → StaleCall → SafetyState → List Nat →
    Option (SafetyState × List Nat)
  | 0, _, _, _ => none
  | fuel + 1, .deps dsym skip, st, seen =>
    if skip = false ∧ dsym ∈ seen then some (st, seen)
    else
      let seen' := dsym :: seen
      let step :=
        if dsym ∉ st.updated_symbols ∧ st.should_mark_stale dsym updatedSym then
          let st1 := st.modifySym dsym fun s =>
            { s with fresher_ancestors := insert updatedSym s.fresher_ancestors,
                     required_cell_num := st.cell_counter }
          (staleRun updatedSym fuel (.parents dsym true) st1 seen').bind
            fun p => staleRun updatedSym fuel (.children dsym true) p.1 p.2
        else some (st, seen')
      step.bind fun p =>
        staleRun updatedSym fuel (.depsList (nonClassToInstanceChildren p.1 updatedSym dsym)) p.1 p.2
  | _ + 1, .depsList [], st, seen => some (st, seen)
  | fuel + 1, .depsList (c :: rest), st, seen =>
    (staleRun updatedSym fuel (.deps c false) st seen).bind
      fun p => staleRun updatedSym fuel (.depsList rest) p.1 p.2
  | fuel + 1, .parents dsym skip, st, seen =>
    if skip = false ∧ dsym ∈ seen then some (st, seen)
    else
      let seen' := dsym :: seen
      let csId := (st.syms dsym).containing_scope
      if (st.scopes csId).is_namespace_scope then
        staleRun updatedSym fuel (.parentsList dsym (st.aliases ((st.scopes csId).obj_id))) st seen'
      else some (st, seen')
  | _ + 1, .parentsList _ [], st, seen => some (st, seen)
  | fuel + 1, .parentsList dsym (ca :: rest), st, seen =>
    let st1 := st.modifySym ca fun s =>
      { s with namespace_stale_symbols := insert dsym s.namespace_stale_symbols }
    (staleRun updatedSym fuel (.parents ca false) st1 seen).bind fun p =>
      (staleRun updatedSym fuel (.depsList (nonClassToInstanceChildren p.1 updatedSym ca)) p.1 p.2).bind
        fun q => staleRun updatedSym fuel (.parentsList dsym rest) q.1 q.2
  | fuel + 1, .children dsym skip, st, seen =>
    if skip = false ∧ dsym ∈ seen then some (st, seen)
    else
      let seen' := dsym :: seen
      match st.namespaces (st.syms dsym).obj_id with
      | none => some (st, seen')
      | some scId =>
        staleRun updatedSym fuel (.depsList ((st.scopes scId).symbols_this_indentation)) st seen'

/-- The loop in `UpdateProtocol.__call__` issuing
`_propagate_staleness_to_deps(dsym, skip_seen_check=True)` for every
symbol collected in pass 1. -/
def staleLoop (updatedSym fuel : Nat) : List Nat → SafetyState → List Nat →
    Option (SafetyState × List Nat)
  | [], st, seen => some (st, seen)
  | d :: rest, st, seen =>
    (staleRun updatedSym fuel (.deps d true) st seen).bind
      fun p => staleLoop updatedSym fuel rest p.1 p.2

/-- One step of the inner loop of
`DataSymbol._propagate_refresh_to_namespace_parents`
(`data_symbol.py` lines 259–264): discard `x` from `al`'s
`namespace_stale_symbols`, and if `al` is then not stale, bump its
`defined_cell_num` to the current cell and clear its
`fresher_ancestors`. -/
def refreshTouch (st : SafetyState) (al x : Nat) : SafetyState :=
  let st1 := st.modifySym al fun s =>
    { s with namespace_stale_symbols := s.namespace_stale_symbols.erase x }
  if (st1.syms al).is_stale then st1
  else st1.modifySym al fun s =>
    { s with defined_cell_num := st1.cell_counter, fresher_ancestors := ∅ }

/-- Call descriptors for the fueled embedding of
`DataSymbol._propagate_refresh_to_namespace_parents`: `node` is one
invocation of the method, `outer` the loop over the aliases of the
symbol's identity, `inner` the loop over the aliases of a containing
namespace. -/
inductive RefreshCall where
  | node (self : Nat)
  | outer (self : Nat) (xs : List Nat)
  | inner (self : Nat) (ys : List Nat)
  deriving DecidableEq

/-- Fueled embedding of `DataSymbol._propagate_refresh_to_namespace_parents`
(`data_symbol.py` lines 247–267). -/
def refreshRun : Nat → RefreshCall → SafetyState → List Nat →
    Option (SafetyState × List Nat)
  | 0, _, _, _ => none
  | fuel + 1, .node self, st, seen =>
    if self ∈ seen then some (st, seen)
    else refreshRun fuel (.outer self (st.aliases ((st.syms self).obj_id))) st (self :: seen)
  | _ + 1, .outer _ [], st, seen => some (st, seen)
  | fuel + 1, .outer self (sa :: rest), st, seen =>
    let csId := (st.syms sa).containing_scope
    if (st.scopes csId).is_namespace_scope then
      let st1 := st.modifyScope csId fun sc =>
        { sc with max_defined_timestamp := st.cell_counter }
      (refreshRun fuel (.inner self (st1.aliases ((st1.scopes csId).obj_id))) st1 seen).bind
        fun p => refreshRun fuel (.outer self rest) p.1 p.2
    else refreshRun fuel (.outer self rest) st seen
  | _ + 1, .inner _ [], st, seen => some (st, seen)
  | fuel + 1, .inner self (al :: rest), st, seen =>
    let st1 := refreshTouch st al self
    (refreshRun fuel (.node al) st1 seen).bind
      fun p => refreshRun fuel (.inner self rest) p.1 p.2

/-- Embedding of `DataSymbol.refresh` (`data_symbol.py` lines 237–245): reset the
symbol's staleness fields, set `defined_cell_num` and
`required_cell_num` to the current cell, then propagate freshness to the
namespace parents with a fresh seen-set. -/
def SafetyState.refresh (st : SafetyState) (sym fuel : Nat) : Option SafetyState :=
  let st1 := st.modifySym sym fun s =>
    { s with fresher_ancestors := ∅,
             defined_cell_num := st.cell_counter,
             required_cell_num := st.cell_counter,
             namespace_stale_symbols := ∅ }
  (refreshRun fuel (.node sym) st1 []).map Prod.fst

/-- Embedding of `UpdateProtocol.__call__` (`update_protocol.py` lines 23–36): when
`propagate` is set and the symbol was mutated or its identity changed,
collect the touched aliases (pass 1, skipping aliases unless `mutated`),
record them in the process-wide `updated_symbols`, propagate staleness to
the dependents of every collected symbol, and finally refresh the updated
symbol itself. -/
def updateProtocol (st : SafetyState) (updatedSym : Nat) (mutated propagate : Bool)
    (fuel : Nat) : Option SafetyState :=
  let collected :=
    if propagate ∧ (mutated ∨ (st.syms updatedSym).obj_id ≠ (st.syms updatedSym).cached_obj_id)
    then collectRun fuel (.sym updatedSym (!mutated)) st []
    else some (st, [])
  collected.bind fun p =>
    let st2 := { p.1 with updated_symbols := p.1.updated_symbols ∪ p.2.toFinset }
    (staleLoop updatedSym fuel p.2 st2 p.2).bind fun q =>
      q.1.refresh updatedSym fuel

/-- Embedding of `TraceStatement.compute_rval_dependencies` (`trace_stmt.py` lines
48–62) for an explicitly given set of right-hand-side symbol references:
names that fail to resolve through `lookup`
(`scope.lookup_data_symbol_by_name` returning `None`) contribute no
dependency; the result is unioned with the call-point dependencies and
the loaded attribute/subscript symbols. -/
def computeRvalDependencies (lookup : String → Option Nat)
    (callPointDeps : List (Finset Nat)) (loadedDataSymbols : Finset Nat)
    (rvalSymbolRefs : List (Option String)) : Finset Nat :=
  let rvalDataSymbols := rvalSymbolRefs.foldl
    (fun acc name =>
      match name with
      | none => acc
      | some n =>
        match lookup n with
        | some d => insert d acc
        | none => acc)
    ∅
  (callPointDeps.foldl (· ∪ ·) rvalDataSymbols) ∪ loadedDataSymbols

/-! ## Static part of the state

The traversals mutate only staleness bookkeeping (`fresher_ancestors`,
`namespace_stale_symbols`, `defined_cell_num`, `required_cell_num` of
symbols, `max_defined_timestamp` of scopes).  `StaticEq` collects the
components they never change; it is the backbone of the invariance
arguments below. -/

structure StaticEq (a b : SafetyState) : Prop where
  aliases_eq : a.aliases = b.aliases
  namespaces_eq : a.namespaces = b.namespaces
  cc_eq : a.cell_counter = b.cell_counter
  config_eq : a.no_stale_propagation_for_same_cell_definition =
    b.no_stale_propagation_for_same_cell_definition
  updated_eq : a.updated_symbols = b.updated_symbols
  obj_id_eq : ∀ i, (a.syms i).obj_id = (b.syms i).obj_id
  cached_eq : ∀ i, (a.syms i).cached_obj_id = (b.syms i).cached_obj_id
  cs_eq : ∀ i, (a.syms i).containing_scope = (b.syms i).containing_scope
  children_eq : ∀ i, (a.syms i).children = (b.syms i).children
  dw_eq : ∀ i, (a.syms i).disable_warnings = (b.syms i).disable_warnings
  scope_ns_eq : ∀ s, (a.scopes s).is_namespace_scope = (b.scopes s).is_namespace_scope
  scope_obj_eq : ∀ s, (a.scopes s).obj_id = (b.scopes s).obj_id
  scope_cloned_eq : ∀ s, (a.scopes s).cloned_from_obj_id = (b.scopes s).cloned_from_obj_id
  scope_symbols_eq : ∀ s, (a.scopes s).symbols_this_indentation =
    (b.scopes s).symbols_this_indentation

/-- The elementary state mutations performed by the refresh-propagation
recursion: bumping a namespace's `max_defined_timestamp` to the current
cell, and the discard-then-maybe-bump step `refreshTouch` on one alias.
Sequences of these steps describe everything
`_propagate_refresh_to_namespace_parents` does to the state. -/
inductive RStep : SafetyState → SafetyState → Prop where
  | maxdef (st : SafetyState) (sc : Nat) :
      RStep st (st.modifyScope sc fun s => { s with max_defined_timestamp := st.cell_counter })
  | touch (st : SafetyState) (al x : Nat) : RStep st (refreshTouch st al x)

/-! ## Fuel adequacy: the seen-set termination argument

`unseen U seen` is the number of live symbols not yet in the seen-set —
the measure that shrinks whenever the Python recursion adds a fresh
symbol to `self.seen`.  `Closed st U` says the finite set `U` (the heap
of `DataSymbol` objects) is closed under every map the traversals
follow; under it, every pass succeeds for some finite fuel. -/

def unseen (U : Finset Nat) (seen : List Nat) : Nat := (U \ seen.toFinset).card

/-- The finite symbol universe `U` is closed under the alias table (for
a symbol's identity and for its containing scope's identity), the
dependency children, and the namespace members — every symbol id any
traversal can encounter starting from `U` stays in `U`. -/
@[reducible] def Closed (st : SafetyState) (U : Finset Nat) : Prop :=
  ∀ x ∈ U,
    (∀ y ∈ st.aliases ((st.syms x).obj_id), y ∈ U) ∧
    (∀ y ∈ (st.syms x).children, y ∈ U) ∧
    (∀ y ∈ st.aliases ((st.scopes ((st.syms x).containing_scope)).obj_id), y ∈ U) ∧
    (∀ y ∈ ((st.namespaces ((st.syms x).obj_id)).elim [] fun sc =>
        (st.scopes sc).symbols_this_indentation), y ∈ U)

/-! ## Concrete test states

Small states realising the spec's scenarios: symbols and scopes are
numbered, identities are two- and three-digit numbers. -/

/-- A symbol with all fields at their most neutral values, used to pad
the symbol tables of the concrete states. -/
def baseSymbol : DataSymbol :=
  { obj_id := 0, cached_obj_id := 0, containing_scope := 0, defined_cell_num := 0,
    required_cell_num := 0, fresher_ancestors := ∅, namespace_stale_symbols := ∅,
    disable_warnings := false, children := [] }

/-- A plain (non-namespace) scope. -/
def baseScope : Scope :=
  { is_namespace_scope := false, obj_id := 0, max_defined_timestamp := 0,
    cloned_from_obj_id := none, symbols_this_indentation := [] }

/-- Same-unit scenario: `a` (symbol 0) and `b` (symbol 1) both defined in
cell 1, `b` depending on `a`, current cell still 1, `a` being re-bound
(identity 10 differs from cached 11). -/
def sameCellSt : SafetyState :=
  { syms := fun i =>
      if i = 0 then { baseSymbol with obj_id := 10, cached_obj_id := 11,
                                      defined_cell_num := 1, required_cell_num := 1,
                                      children := [1] }
      else if i = 1 then { baseSymbol with obj_id := 20, cached_obj_id := 20,
                                           defined_cell_num := 1, required_cell_num := 1 }
      else baseSymbol,
    scopes := fun _ => baseScope,
    namespaces := fun _ => none,
    aliases := fun o => if o = 10 then [0] else if o = 20 then [1] else [],
    updated_symbols := ∅,
    cell_counter := 1,
    no_stale_propagation_for_same_cell_definition := true }

/-- Cross-unit scenario: unit 1 bound `a` (symbol 0), unit 2 defined
`b = f(a)` (symbol 1), and unit 3 is about to re-bind `a` (identity 10
differs from cached 11, cell counter 3, the host has cleared the
per-round updated set). -/
def crossUnitSt : SafetyState :=
  { syms := fun i =>
      if i = 0 then { baseSymbol with obj_id := 10, cached_obj_id := 11,
                                      defined_cell_num := 1, required_cell_num := 1,
                                      children := [1] }
      else if i = 1 then { baseSymbol with obj_id := 20, cached_obj_id := 20,
                                           defined_cell_num := 2, required_cell_num := 2 }
      else baseSymbol,
    scopes := fun _ => baseScope,
    namespaces := fun _ => none,
    aliases := fun o => if o = 10 then [0] else if o = 20 then [1] else [],
    updated_symbols := ∅,
    cell_counter := 3,
    no_stale_propagation_for_same_cell_definition := true }

/-- Class/instance scenario: class `C` (symbol 0, identity 100, namespace
scope 10), instances `i1` (symbol 1, identity 101, namespace cloned from
100) and `i2` (symbol 2, identity 102, namespace cloned from 100), class
member `m` (symbol 3, living in the class namespace, depending on `i1`);
`i1` is about to be mutated in cell 3. -/
def classInstanceSt : SafetyState :=
  { syms := fun i =>
      if i = 0 then { baseSymbol with obj_id := 100, cached_obj_id := 100,
                                      defined_cell_num := 1, required_cell_num := 1,
                                      children := [1, 2] }
      else if i = 1 then { baseSymbol with obj_id := 101, cached_obj_id := 101,
                                           defined_cell_num := 2, required_cell_num := 2,
                                           children := [3] }
      else if i = 2 then { baseSymbol with obj_id := 102, cached_obj_id := 102,
                                           defined_cell_num := 2, required_cell_num := 2 }
      else if i = 3 then { baseSymbol with obj_id := 103, cached_obj_id := 103,
                                           containing_scope := 10, defined_cell_num := 1,
                                           required_cell_num := 1 }
      else baseSymbol,
    scopes := fun s =>
      if s = 10 then { baseScope with is_namespace_scope := true, obj_id := 100,
                                      symbols_this_indentation := [3] }
      else if s = 11 then { baseScope with is_namespace_scope := true, obj_id := 101,
                                           cloned_from_obj_id := some 100 }
      else if s = 12 then { baseScope with is_namespace_scope := true, obj_id := 102,
                                           cloned_from_obj_id := some 100 }
      else baseScope,
    namespaces := fun o =>
      if o = 100 then some 10 else if o = 101 then some 11
      else if o = 102 then some 12 else none,
    aliases := fun o =>
      if o = 100 then [0] else if o = 101 then [1] else if o = 102 then [2]
      else if o = 103 then [3] else [],
    updated_symbols := ∅,
    cell_counter := 3,
    no_stale_propagation_for_same_cell_definition := true }

/-- Cyclic containment: symbol 0 is bound to identity 50 and is itself a
member of the namespace scope 5 describing identity 50 — the namespace
contains an alias of itself. -/
def cyclicSt : SafetyState :=
  { syms := fun _ =>
      { baseSymbol with obj_id := 50, cached_obj_id := 51, containing_scope := 5,
                        defined_cell_num := 1, required_cell_num := 1 },
    scopes := fun s =>
      if s = 5 then { baseScope with is_namespace_scope := true, obj_id := 50,
                                     symbols_this_indentation := [0] }
      else baseScope,
    namespaces := fun o => if o = 50 then some 5 else none,
    aliases := fun o => if o = 50 then [0] else [],
    updated_symbols := ∅,
    cell_counter := 2,
    no_stale_propagation_for_same_cell_definition := true }

/-- Refresh-healing scenario: container `b` (symbol 1, identity 200) is
stale only because its member `b.x` (symbol 2, living in `b`'s namespace
scope 20) is stale; the current cell is 4. -/
def containerSt : SafetyState :=
  { syms := fun i =>
      if i = 1 then { baseSymbol with obj_id := 200, cached_obj_id := 200,
                                      defined_cell_num := 2, required_cell_num := 2,
                                      namespace_stale_symbols := {2} }
      else if i = 2 then { baseSymbol with obj_id := 201, cached_obj_id := 201,
                                           containing_scope := 20, defined_cell_num := 1,
                                           required_cell_num := 3,
                                           fresher_ancestors := {9} }
      else baseSymbol,
    scopes := fun s =>
      if s = 20 then { baseScope with is_namespace_scope := true, obj_id := 200,
                                      symbols_this_indentation := [2] }
      else baseScope,
    namespaces := fun o => if o = 200 then some 20 else none,
    aliases := fun o => if o = 200 then [1] else if o = 201 then [2] else [],
    updated_symbols := ∅,
    cell_counter := 4,
    no_stale_propagation_for_same_cell_definition := true }

/-! ## Properties -/

@[simp] theorem SafetyState.modifySym_syms_self (st : SafetyState) (i : Nat)
    (f : DataSymbol → DataSymbol) : (st.modifySym i f).syms i = f (st.syms i) := by
  simp [SafetyState.modifySym]

theorem SafetyState.modifySym_syms_ne (st : SafetyState) {i j : Nat}
    (f : DataSymbol → DataSymbol) (h : j ≠ i) : (st.modifySym i f).syms j = st.syms j := by
  simp [SafetyState.modifySym, h]

@[simp] theorem SafetyState.modifySym_scopes (st : SafetyState) (i : Nat)
    (f : DataSymbol → DataSymbol) : (st.modifySym i f).scopes = st.scopes := rfl

@[simp] theorem SafetyState.modifySym_aliases (st : SafetyState) (i : Nat)
    (f : DataSymbol → DataSymbol) : (st.modifySym i f).aliases = st.aliases := rfl

@[simp] theorem SafetyState.modifySym_namespaces (st : SafetyState) (i : Nat)
    (f : DataSymbol → DataSymbol) : (st.modifySym i f).namespaces = st.namespaces := rfl

@[simp] theorem SafetyState.modifySym_cell_counter (st : SafetyState) (i : Nat)
    (f : DataSymbol → DataSymbol) : (st.modifySym i f).cell_counter = st.cell_counter := rfl

@[simp] theorem SafetyState.modifySym_updated (st : SafetyState) (i : Nat)
    (f : DataSymbol → DataSymbol) : (st.modifySym i f).updated_symbols = st.updated_symbols := rfl

@[simp] theorem SafetyState.modifySym_config (st : SafetyState) (i : Nat)
    (f : DataSymbol → DataSymbol) :
    (st.modifySym i f).no_stale_propagation_for_same_cell_definition =
      st.no_stale_propagation_for_same_cell_definition := rfl

@[simp] theorem SafetyState.modifyScope_scopes_self (st : SafetyState) (i : Nat)
    (f : Scope → Scope) : (st.modifyScope i f).scopes i = f (st.scopes i) := by
  simp [SafetyState.modifyScope]

theorem SafetyState.modifyScope_scopes_ne (st : SafetyState) {i j : Nat}
    (f : Scope → Scope) (h : j ≠ i) : (st.modifyScope i f).scopes j = st.scopes j := by
  simp [SafetyState.modifyScope, h]

@[simp] theorem SafetyState.modifyScope_syms (st : SafetyState) (i : Nat)
    (f : Scope → Scope) : (st.modifyScope i f).syms = st.syms := rfl

@[simp] theorem SafetyState.modifyScope_aliases (st : SafetyState) (i : Nat)
    (f : Scope → Scope) : (st.modifyScope i f).aliases = st.aliases := rfl

@[simp] theorem SafetyState.modifyScope_namespaces (st : SafetyState) (i : Nat)
    (f : Scope → Scope) : (st.modifyScope i f).namespaces = st.namespaces := rfl

@[simp] theorem SafetyState.modifyScope_cell_counter (st : SafetyState) (i : Nat)
    (f : Scope → Scope) : (st.modifyScope i f).cell_counter = st.cell_counter := rfl

@[simp] theorem SafetyState.modifyScope_updated (st : SafetyState) (i : Nat)
    (f : Scope → Scope) : (st.modifyScope i f).updated_symbols = st.updated_symbols := rfl

@[simp] theorem SafetyState.modifyScope_config (st : SafetyState) (i : Nat)
    (f : Scope → Scope) :
    (st.modifyScope i f).no_stale_propagation_for_same_cell_definition =
      st.no_stale_propagation_for_same_cell_definition := rfl

theorem StaticEq.rfl {a : SafetyState} : StaticEq a a :=
  ⟨Eq.refl _, Eq.refl _, Eq.refl _, Eq.refl _, Eq.refl _, fun _ => Eq.refl _,
   fun _ => Eq.refl _, fun _ => Eq.refl _, fun _ => Eq.refl _, fun _ => Eq.refl _,
   fun _ => Eq.refl _, fun _ => Eq.refl _, fun _ => Eq.refl _, fun _ => Eq.refl _⟩

theorem StaticEq.trans {a b c : SafetyState} (h1 : StaticEq a b) (h2 : StaticEq b c) :
    StaticEq a c :=
  ⟨h1.aliases_eq.trans h2.aliases_eq, h1.namespaces_eq.trans h2.namespaces_eq,
   h1.cc_eq.trans h2.cc_eq, h1.config_eq.trans h2.config_eq,
   h1.updated_eq.trans h2.updated_eq,
   fun i => (h1.obj_id_eq i).trans (h2.obj_id_eq i),
   fun i => (h1.cached_eq i).trans (h2.cached_eq i),
   fun i => (h1.cs_eq i).trans (h2.cs_eq i),
   fun i => (h1.children_eq i).trans (h2.children_eq i),
   fun i => (h1.dw_eq i).trans (h2.dw_eq i),
   fun s => (h1.scope_ns_eq s).trans (h2.scope_ns_eq s),
   fun s => (h1.scope_obj_eq s).trans (h2.scope_obj_eq s),
   fun s => (h1.scope_cloned_eq s).trans (h2.scope_cloned_eq s),
   fun s => (h1.scope_symbols_eq s).trans (h2.scope_symbols_eq s)⟩

/-- Point symbol updates that keep the static symbol fields give
statically equal states. -/
theorem staticEq_modifySym (st : SafetyState) (i : Nat) (f : DataSymbol → DataSymbol)
    (hobj : ∀ s, (f s).obj_id = s.obj_id) (hcached : ∀ s, (f s).cached_obj_id = s.cached_obj_id)
    (hcs : ∀ s, (f s).containing_scope = s.containing_scope)
    (hch : ∀ s, (f s).children = s.children)
    (hdw : ∀ s, (f s).disable_warnings = s.disable_warnings) :
    StaticEq st (st.modifySym i f) := by
  refine ⟨rfl, rfl, rfl, rfl, rfl, ?_, ?_, ?_, ?_, ?_, fun _ => rfl, fun _ => rfl,
    fun _ => rfl, fun _ => rfl⟩ <;>
    intro j <;> by_cases hj : j = i <;>
      simp [SafetyState.modifySym, hj, hobj, hcached, hcs, hch, hdw]

/-- Point scope updates that keep the static scope fields give statically
equal states. -/
theorem staticEq_modifyScope (st : SafetyState) (i : Nat) (f : Scope → Scope)
    (hns : ∀ s, (f s).is_namespace_scope = s.is_namespace_scope)
    (hobj : ∀ s, (f s).obj_id = s.obj_id)
    (hcl : ∀ s, (f s).cloned_from_obj_id = s.cloned_from_obj_id)
    (hsy : ∀ s, (f s).symbols_this_indentation = s.symbols_this_indentation) :
    StaticEq st (st.modifyScope i f) := by
  refine ⟨rfl, rfl, rfl, rfl, rfl, fun _ => rfl, fun _ => rfl, fun _ => rfl, fun _ => rfl,
    fun _ => rfl, ?_, ?_, ?_, ?_⟩ <;>
    intro j <;> by_cases hj : j = i <;>
      simp [SafetyState.modifyScope, hj, hns, hobj, hcl, hsy]

/-- After `_collect_updated_symbols` completes, the static state is
unchanged and the seen-set has only grown. -/
theorem collectRun_spec {n : Nat} : ∀ {c : CollectCall} {st : SafetyState}
    {seen : List Nat} {p : SafetyState × List Nat}, collectRun n c st seen = some p →
    StaticEq st p.1 ∧ seen ⊆ p.2 := by
  induction n with
  | zero => intro c st seen p h; simp [collectRun] at h
  | succ n ih =>
    intro c st seen p h
    match c with
    | .sym dsym skipAliases =>
      simp only [collectRun] at h
      exact ih h
    | .outer dsym [] =>
      simp only [collectRun, Option.some.injEq] at h
      exact h ▸ ⟨StaticEq.rfl, List.Subset.refl _⟩
    | .outer dsym (a :: rest) =>
      simp only [collectRun] at h
      split at h
      · exact ih h
      · split at h
        · obtain ⟨q, hq1, hq2⟩ := Option.bind_eq_some.mp h
          obtain ⟨s1, l1⟩ := ih hq1
          obtain ⟨s2, l2⟩ := ih hq2
          refine ⟨StaticEq.trans (StaticEq.trans ?_ s1) s2, ?_⟩
          · exact staticEq_modifyScope st _ _ (fun _ => rfl) (fun _ => rfl) (fun _ => rfl)
              (fun _ => rfl)
          · exact fun x hx => l2 (l1 (List.mem_cons_of_mem a hx))
        · obtain ⟨s1, l1⟩ := ih h
          exact ⟨s1, fun x hx => l1 (List.mem_cons_of_mem a hx)⟩
    | .inner dsym [] =>
      simp only [collectRun, Option.some.injEq] at h
      exact h ▸ ⟨StaticEq.rfl, List.Subset.refl _⟩
    | .inner dsym (b :: rest) =>
      simp only [collectRun] at h
      obtain ⟨q, hq1, hq2⟩ := Option.bind_eq_some.mp h
      obtain ⟨s1, l1⟩ := ih hq1
      obtain ⟨s2, l2⟩ := ih hq2
      refine ⟨StaticEq.trans (StaticEq.trans ?_ s1) s2, fun x hx => l2 (l1 hx)⟩
      exact staticEq_modifySym st _ _ (fun _ => rfl) (fun _ => rfl) (fun _ => rfl)
        (fun _ => rfl) (fun _ => rfl)

/-- After any part of the staleness-propagation pass completes, the
static state is unchanged and the seen-set has only grown. -/
theorem staleRun_spec {u n : Nat} : ∀ {c : StaleCall} {st : SafetyState}
    {seen : List Nat} {p : SafetyState × List Nat}, staleRun u n c st seen = some p →
    StaticEq st p.1 ∧ seen ⊆ p.2 := by
  induction n with
  | zero => intro c st seen p h; simp [staleRun] at h
  | succ n ih =>
    intro c st seen p h
    match c with
    | .deps dsym skip =>
      simp only [staleRun] at h
      split at h
      · simp only [Option.some.injEq] at h
        exact h ▸ ⟨StaticEq.rfl, List.Subset.refl _⟩
      · split at h
        · obtain ⟨q, hq1, hq2⟩ := Option.bind_eq_some.mp h
          obtain ⟨q', hq1', hq2'⟩ := Option.bind_eq_some.mp hq1
          obtain ⟨s1, l1⟩ := ih hq1'
          obtain ⟨s2, l2⟩ := ih hq2'
          obtain ⟨s3, l3⟩ := ih hq2
          refine ⟨StaticEq.trans (StaticEq.trans (StaticEq.trans ?_ s1) s2) s3, ?_⟩
          · exact staticEq_modifySym st _ _ (fun _ => rfl) (fun _ => rfl) (fun _ => rfl)
              (fun _ => rfl) (fun _ => rfl)
          · exact fun x hx => l3 (l2 (l1 (List.mem_cons_of_mem dsym hx)))
        · obtain ⟨q, hq1, hq2⟩ := Option.bind_eq_some.mp h
          simp only [Option.some.injEq] at hq1
          obtain ⟨s3, l3⟩ := ih hq2
          subst hq1
          exact ⟨s3, fun x hx => l3 (List.mem_cons_of_mem dsym hx)⟩
    | .depsList [] =>
      simp only [staleRun, Option.some.injEq] at h
      exact h ▸ ⟨StaticEq.rfl, List.Subset.refl _⟩
    | .depsList (a :: rest) =>
      simp only [staleRun] at h
      obtain ⟨q, hq1, hq2⟩ := Option.bind_eq_some.mp h
      obtain ⟨s1, l1⟩ := ih hq1
      obtain ⟨s2, l2⟩ := ih hq2
      exact ⟨s1.trans s2, fun x hx => l2 (l1 hx)⟩
    | .parents dsym skip =>
      simp only [staleRun] at h
      split at h
      · simp only [Option.some.injEq] at h
        exact h ▸ ⟨StaticEq.rfl, List.Subset.refl _⟩
      · split at h
        · obtain ⟨s1, l1⟩ := ih h
          exact ⟨s1, fun x hx => l1 (List.mem_cons_of_mem dsym hx)⟩
        · simp only [Option.some.injEq] at h
          exact h ▸ ⟨StaticEq.rfl, fun x hx => List.mem_cons_of_mem dsym hx⟩
    | .parentsList dsym [] =>
      simp only [staleRun, Option.some.injEq] at h
      exact h ▸ ⟨StaticEq.rfl, List.Subset.refl _⟩
    | .parentsList dsym (ca :: rest) =>
      simp only [staleRun] at h
      obtain ⟨q, hq1, hq2⟩ := Option.bind_eq_some.mp h
      obtain ⟨q', hq1', hq2'⟩ := Option.bind_eq_some.mp hq2
      obtain ⟨s1, l1⟩ := ih hq1
      obtain ⟨s2, l2⟩ := ih hq1'
      obtain ⟨s3, l3⟩ := ih hq2'
      refine ⟨StaticEq.trans (StaticEq.trans (StaticEq.trans ?_ s1) s2) s3, ?_⟩
      · exact staticEq_modifySym st _ _ (fun _ => rfl) (fun _ => rfl) (fun _ => rfl)
          (fun _ => rfl) (fun _ => rfl)
      · exact fun x hx => l3 (l2 (l1 hx))
    | .children dsym skip =>
      simp only [staleRun] at h
      split at h
      · simp only [Option.some.injEq] at h
        exact h ▸ ⟨StaticEq.rfl, List.Subset.refl _⟩
      · split at h
        · simp only [Option.some.injEq] at h
          exact h ▸ ⟨StaticEq.rfl, fun x hx => List.mem_cons_of_mem dsym hx⟩
        · obtain ⟨s1, l1⟩ := ih h
          exact ⟨s1, fun x hx => l1 (List.mem_cons_of_mem dsym hx)⟩

theorem RStep.staticEq {a b : SafetyState} (h : RStep a b) : StaticEq a b := by
  cases h with
  | maxdef sc =>
    exact staticEq_modifyScope a _ _ (fun _ => rfl) (fun _ => rfl) (fun _ => rfl)
      (fun _ => rfl)
  | touch al x =>
    simp only [refreshTouch]
    split
    · exact staticEq_modifySym a _ _ (fun _ => rfl) (fun _ => rfl) (fun _ => rfl)
        (fun _ => rfl) (fun _ => rfl)
    · have h1 := staticEq_modifySym a al
        (fun s => { s with namespace_stale_symbols := s.namespace_stale_symbols.erase x })
        (fun _ => rfl) (fun _ => rfl) (fun _ => rfl) (fun _ => rfl) (fun _ => rfl)
      exact h1.trans (staticEq_modifySym _ _ _ (fun _ => rfl) (fun _ => rfl) (fun _ => rfl)
        (fun _ => rfl) (fun _ => rfl))

theorem rtrans_staticEq {a b : SafetyState} (h : Relation.ReflTransGen RStep a b) :
    StaticEq a b := by
  induction h with
  | refl => exact StaticEq.rfl
  | tail _ hstep ih => exact ih.trans hstep.staticEq

/-- After the refresh-propagation recursion completes, the final state is
reachable from the initial one by refresh steps, and the seen-set has
only grown. -/
theorem refreshRun_spec {n : Nat} : ∀ {c : RefreshCall} {st : SafetyState}
    {seen : List Nat} {p : SafetyState × List Nat}, refreshRun n c st seen = some p →
    Relation.ReflTransGen RStep st p.1 ∧ seen ⊆ p.2 := by
  induction n with
  | zero => intro c st seen p h; simp [refreshRun] at h
  | succ n ih =>
    intro c st seen p h
    match c with
    | .node self =>
      simp only [refreshRun] at h
      split at h
      · simp only [Option.some.injEq] at h
        exact h ▸ ⟨Relation.ReflTransGen.refl, List.Subset.refl _⟩
      · obtain ⟨s1, l1⟩ := ih h
        exact ⟨s1, fun x hx => l1 (List.mem_cons_of_mem self hx)⟩
    | .outer self [] =>
      simp only [refreshRun, Option.some.injEq] at h
      exact h ▸ ⟨Relation.ReflTransGen.refl, List.Subset.refl _⟩
    | .outer self (sa :: rest) =>
      simp only [refreshRun] at h
      split at h
      · obtain ⟨q, hq1, hq2⟩ := Option.bind_eq_some.mp h
        obtain ⟨s1, l1⟩ := ih hq1
        obtain ⟨s2, l2⟩ := ih hq2
        refine ⟨Relation.ReflTransGen.trans (Relation.ReflTransGen.trans
          (Relation.ReflTransGen.single (RStep.maxdef st _)) s1) s2, fun x hx => l2 (l1 hx)⟩
      · obtain ⟨s1, l1⟩ := ih h
        exact ⟨s1, l1⟩
    | .inner self [] =>
      simp only [refreshRun, Option.some.injEq] at h
      exact h ▸ ⟨Relation.ReflTransGen.refl, List.Subset.refl _⟩
    | .inner self (al :: rest) =>
      simp only [refreshRun] at h
      obtain ⟨q, hq1, hq2⟩ := Option.bind_eq_some.mp h
      obtain ⟨s1, l1⟩ := ih hq1
      obtain ⟨s2, l2⟩ := ih hq2
      exact ⟨Relation.ReflTransGen.trans (Relation.ReflTransGen.trans
        (Relation.ReflTransGen.single (RStep.touch st al self)) s1) s2,
        fun x hx => l2 (l1 hx)⟩

/-! ## Fuel monotonicity

A run that succeeds with some fuel succeeds, with the same result, with
any larger fuel.  This is what lets the fuel parameter stand in for the
Python recursion: the protocol's behaviour is the common value of all
sufficiently fueled runs. -/

theorem collectRun_mono {n : Nat} : ∀ {c : CollectCall} {st : SafetyState}
    {seen : List Nat} {p : SafetyState × List Nat}, collectRun n c st seen = some p →
    collectRun (n + 1) c st seen = some p := by
  induction n with
  | zero => intro c st seen p h; simp [collectRun] at h
  | succ n ih =>
    intro c st seen p h
    match c with
    | .sym dsym skipAliases =>
      simp only [collectRun] at h
      show collectRun (n + 1) (.outer dsym _) st seen = some p
      exact ih h
    | .outer dsym [] => simpa only [collectRun] using h
    | .outer dsym (a :: rest) =>
      simp only [collectRun] at h
      show (if a ∈ seen then collectRun (n + 1) (.outer dsym rest) st seen else _) = some p
      by_cases ha : a ∈ seen
      · rw [if_pos ha] at h ⊢
        exact ih h
      · rw [if_neg ha] at h ⊢
        dsimp only at h ⊢
        by_cases hns : (st.scopes ((st.syms a).containing_scope)).is_namespace_scope = true
        · rw [if_pos hns] at h ⊢
          obtain ⟨q, hq1, hq2⟩ := Option.bind_eq_some.mp h
          rw [ih hq1]
          exact ih hq2
        · rw [if_neg hns] at h ⊢
          exact ih h
    | .inner dsym [] => simpa only [collectRun] using h
    | .inner dsym (b :: rest) =>
      simp only [collectRun] at h
      obtain ⟨q, hq1, hq2⟩ := Option.bind_eq_some.mp h
      show (collectRun (n + 1) (.sym b false) _ seen).bind _ = some p
      rw [ih hq1]
      exact ih hq2

theorem collectRun_mono_le {n m : Nat} (hnm : n ≤ m) {c : CollectCall} {st : SafetyState}
    {seen : List Nat} {p : SafetyState × List Nat} (h : collectRun n c st seen = some p) :
    collectRun m c st seen = some p := by
  induction hnm with
  | refl => exact h
  | step _ ih => exact collectRun_mono ih

theorem staleRun_mono {u n : Nat} : ∀ {c : StaleCall} {st : SafetyState}
    {seen : List Nat} {p : SafetyState × List Nat}, staleRun u n c st seen = some p →
    staleRun u (n + 1) c st seen = some p := by
  induction n with
  | zero => intro c st seen p h; simp [staleRun] at h
  | succ n ih =>
    intro c st seen p h
    match c with
    | .deps dsym skip =>
      simp only [staleRun] at h
      show (if skip = false ∧ dsym ∈ seen then some (st, seen) else _) = some p
      by_cases hsk : skip = false ∧ dsym ∈ seen
      · rwa [if_pos hsk] at h ⊢
      · rw [if_neg hsk] at h ⊢
        dsimp only at h ⊢
        by_cases hmk : dsym ∉ st.updated_symbols ∧ st.should_mark_stale dsym u = true
        · rw [if_pos hmk] at h ⊢
          obtain ⟨q, hq1, hq2⟩ := Option.bind_eq_some.mp h
          obtain ⟨q', hq1', hq2'⟩ := Option.bind_eq_some.mp hq1
          rw [ih hq1']
          show ((staleRun u (n + 1) (.children dsym true) q'.1 q'.2).bind _) = some p
          rw [ih hq2']
          exact ih hq2
        · rw [if_neg hmk] at h ⊢
          obtain ⟨q, hq1, hq2⟩ := Option.bind_eq_some.mp h
          simp only [Option.some.injEq] at hq1
          subst hq1
          show (Option.bind (some (st, dsym :: seen)) _) = some p
          exact ih hq2
    | .depsList [] => simpa only [staleRun] using h
    | .depsList (a :: rest) =>
      simp only [staleRun] at h
      obtain ⟨q, hq1, hq2⟩ := Option.bind_eq_some.mp h
      show (staleRun u (n + 1) (.deps a false) st seen).bind _ = some p
      rw [ih hq1]
      exact ih hq2
    | .parents dsym skip =>
      simp only [staleRun] at h
      show (if skip = false ∧ dsym ∈ seen then some (st, seen) else _) = some p
      by_cases hsk : skip = false ∧ dsym ∈ seen
      · rwa [if_pos hsk] at h ⊢
      · rw [if_neg hsk] at h ⊢
        dsimp only at h ⊢
        by_cases hns : (st.scopes ((st.syms dsym).containing_scope)).is_namespace_scope = true
        · rw [if_pos hns] at h ⊢
          exact ih h
        · rwa [if_neg hns] at h ⊢
    | .parentsList dsym [] => simpa only [staleRun] using h
    | .parentsList dsym (ca :: rest) =>
      simp only [staleRun] at h
      obtain ⟨q, hq1, hq2⟩ := Option.bind_eq_some.mp h
      obtain ⟨q', hq1', hq2'⟩ := Option.bind_eq_some.mp hq2
      show (staleRun u (n + 1) (.parents ca false) _ seen).bind _ = some p
      rw [ih hq1]
      show (staleRun u (n + 1) (.depsList _) q.1 q.2).bind _ = some p
      rw [ih hq1']
      exact ih hq2'
    | .children dsym skip =>
      simp only [staleRun] at h
      show (if skip = false ∧ dsym ∈ seen then some (st, seen) else _) = some p
      by_cases hsk : skip = false ∧ dsym ∈ seen
      · rwa [if_pos hsk] at h ⊢
      · rw [if_neg hsk] at h ⊢
        dsimp only at h ⊢
        cases hmatch : st.namespaces ((st.syms dsym).obj_id) with
        | none => rw [hmatch] at h; exact h
        | some scId => rw [hmatch] at h; exact ih h

theorem staleRun_mono_le {u n m : Nat} (hnm : n ≤ m) {c : StaleCall} {st : SafetyState}
    {seen : List Nat} {p : SafetyState × List Nat} (h : staleRun u n c st seen = some p) :
    staleRun u m c st seen = some p := by
  induction hnm with
  | refl => exact h
  | step _ ih => exact staleRun_mono ih

theorem refreshRun_mono {n : Nat} : ∀ {c : RefreshCall} {st : SafetyState}
    {seen : List Nat} {p : SafetyState × List Nat}, refreshRun n c st seen = some p →
    refreshRun (n + 1) c st seen = some p := by
  induction n with
  | zero => intro c st seen p h; simp [refreshRun] at h
  | succ n ih =>
    intro c st seen p h
    match c with
    | .node self =>
      simp only [refreshRun] at h
      show (if self ∈ seen then some (st, seen) else _) = some p
      by_cases hs : self ∈ seen
      · rwa [if_pos hs] at h ⊢
      · rw [if_neg hs] at h ⊢
        exact ih h
    | .outer self [] => simpa only [refreshRun] using h
    | .outer self (sa :: rest) =>
      simp only [refreshRun] at h
      show (if (st.scopes ((st.syms sa).containing_scope)).is_namespace_scope = true
        then _ else refreshRun (n + 1) (.outer self rest) st seen) = some p
      by_cases hns : (st.scopes ((st.syms sa).containing_scope)).is_namespace_scope = true
      · rw [if_pos hns] at h ⊢
        obtain ⟨q, hq1, hq2⟩ := Option.bind_eq_some.mp h
        rw [ih hq1]
        exact ih hq2
      · rw [if_neg hns] at h ⊢
        exact ih h
    | .inner self [] => simpa only [refreshRun] using h
    | .inner self (al :: rest) =>
      simp only [refreshRun] at h
      obtain ⟨q, hq1, hq2⟩ := Option.bind_eq_some.mp h
      show (refreshRun (n + 1) (.node al) (refreshTouch st al self) seen).bind _ = some p
      rw [ih hq1]
      exact ih hq2

theorem refreshRun_mono_le {n m : Nat} (hnm : n ≤ m) {c : RefreshCall} {st : SafetyState}
    {seen : List Nat} {p : SafetyState × List Nat} (h : refreshRun n c st seen = some p) :
    refreshRun m c st seen = some p := by
  induction hnm with
  | refl => exact h
  | step _ ih => exact refreshRun_mono ih

theorem staleLoop_mono_le {u n m : Nat} (hnm : n ≤ m) : ∀ {xs : List Nat} {st : SafetyState}
    {seen : List Nat} {p : SafetyState × List Nat}, staleLoop u n xs st seen = some p →
    staleLoop u m xs st seen = some p := by
  intro xs
  induction xs with
  | nil => intro st seen p h; simpa only [staleLoop] using h
  | cons d rest ih =>
    intro st seen p h
    simp only [staleLoop] at h ⊢
    obtain ⟨q, hq1, hq2⟩ := Option.bind_eq_some.mp h
    rw [staleRun_mono_le hnm hq1]
    exact ih hq2

theorem unseen_le_of_subset (U : Finset Nat) {s1 s2 : List Nat} (h : s1 ⊆ s2) :
    unseen U s2 ≤ unseen U s1 := by
  apply Finset.card_le_card
  intro x hx
  rw [Finset.mem_sdiff] at hx ⊢
  refine ⟨hx.1, fun hmem => hx.2 ?_⟩
  rw [List.mem_toFinset] at hmem ⊢
  exact h hmem

theorem unseen_cons_le (U : Finset Nat) (a : Nat) (seen : List Nat) :
    unseen U (a :: seen) ≤ unseen U seen :=
  unseen_le_of_subset U (List.subset_cons_self a seen)

theorem unseen_cons_lt (U : Finset Nat) {a : Nat} {seen : List Nat}
    (ha : a ∈ U) (hs : a ∉ seen) : unseen U (a :: seen) < unseen U seen := by
  show ((U \ (a :: seen).toFinset).card < _)
  rw [List.toFinset_cons, Finset.sdiff_insert]
  exact Finset.card_erase_lt_of_mem (Finset.mem_sdiff.mpr ⟨ha, by simpa using hs⟩)

theorem Closed.transport {st st' : SafetyState} {U : Finset Nat}
    (hs : StaticEq st st') (h : Closed st U) : Closed st' U := by
  intro x hx
  obtain ⟨h1, h2, h3, h4⟩ := h x hx
  have hsymb : (fun sc => (st'.scopes sc).symbols_this_indentation) =
      fun sc => (st.scopes sc).symbols_this_indentation :=
    funext fun sc => (hs.scope_symbols_eq sc).symm
  refine ⟨?_, ?_, ?_, ?_⟩
  · rw [← hs.aliases_eq, ← hs.obj_id_eq x]; exact h1
  · rw [← hs.children_eq x]; exact h2
  · rw [← hs.aliases_eq, ← hs.scope_obj_eq, ← hs.cs_eq x]; exact h3
  · rw [← hs.namespaces_eq, ← hs.obj_id_eq x, hsymb]; exact h4

theorem nonClassToInstanceChildren_subset {st : SafetyState} {u d : Nat} :
    ∀ y ∈ nonClassToInstanceChildren st u d, y ∈ (st.syms d).children := by
  intro y hy
  unfold nonClassToInstanceChildren at hy
  split at hy
  · exact hy
  · exact (List.mem_filter.mp hy).1

/-- Fuel adequacy for `_collect_updated_symbols`: on a closed finite
universe, the pass succeeds with some fuel — the formal content of the
seen-set termination argument for pass 1. -/
theorem collectRun_adequate (U : Finset Nat) :
    ∀ (c : Nat) (call : CollectCall) (st : SafetyState) (seen : List Nat),
      Closed st U →
      (match call with
        | .sym d _ => d ∈ U
        | .outer _ xs => ∀ a ∈ xs, a ∈ U
        | .inner _ ys => ∀ b ∈ ys, b ∈ U) →
      unseen U seen ≤ c → ∃ n p, collectRun n call st seen = some p := by
  intro c
  induction c using Nat.strong_induction_on with
  | _ c IH =>
    have houter : ∀ (xs : List Nat) (dsym : Nat) (st : SafetyState) (seen : List Nat),
        Closed st U → (∀ a ∈ xs, a ∈ U) → unseen U seen ≤ c →
        ∃ n p, collectRun n (.outer dsym xs) st seen = some p := by
      intro xs
      induction xs with
      | nil => exact fun dsym st seen _ _ _ => ⟨1, (st, seen), rfl⟩
      | cons a rest ihxs =>
        intro dsym st seen hcl hok hle
        by_cases ha : a ∈ seen
        · obtain ⟨n, p, hn⟩ := ihxs dsym st seen hcl
            (fun b hb => hok b (List.mem_cons_of_mem a hb)) hle
          refine ⟨n + 1, p, ?_⟩
          show (if a ∈ seen then collectRun n (.outer dsym rest) st seen else _) = some p
          rw [if_pos ha]; exact hn
        · have haU : a ∈ U := hok a (List.mem_cons_self a rest)
          have hlt : unseen U (a :: seen) < c :=
            lt_of_lt_of_le (unseen_cons_lt U haU ha) hle
          by_cases hns : (st.scopes ((st.syms a).containing_scope)).is_namespace_scope = true
          · have hstat : StaticEq st (st.modifyScope ((st.syms a).containing_scope)
                fun sc => { sc with max_defined_timestamp := st.cell_counter }) :=
              staticEq_modifyScope st _ _ (fun _ => rfl) (fun _ => rfl) (fun _ => rfl)
                (fun _ => rfl)
            have hcl' := Closed.transport hstat hcl
            obtain ⟨n1, p1, hn1⟩ := IH _ hlt (.inner dsym
              ((st.modifyScope ((st.syms a).containing_scope)
                fun sc => { sc with max_defined_timestamp := st.cell_counter }).aliases
                (((st.modifyScope ((st.syms a).containing_scope)
                fun sc => { sc with max_defined_timestamp := st.cell_counter }).scopes
                ((st.syms a).containing_scope)).obj_id)))
              (st.modifyScope ((st.syms a).containing_scope)
                fun sc => { sc with max_defined_timestamp := st.cell_counter })
              (a :: seen) hcl' ((hcl' a haU).2.2.1) (le_refl _)
            have hsp1 := collectRun_spec hn1
            have hcl1 := Closed.transport hsp1.1 hcl'
            have hsub1 : (a :: seen) ⊆ p1.2 := hsp1.2
            have hlt2 : unseen U p1.2 < c :=
              lt_of_le_of_lt (unseen_le_of_subset U hsub1) hlt
            obtain ⟨n2, p2, hn2⟩ := IH _ hlt2 (.outer dsym rest) p1.1 p1.2 hcl1
              (fun b hb => hok b (List.mem_cons_of_mem a hb)) (le_refl _)
            refine ⟨max n1 n2 + 1, p2, ?_⟩
            show (if a ∈ seen then _ else _) = some p2
            rw [if_neg ha]
            show (if (st.scopes ((st.syms a).containing_scope)).is_namespace_scope = true
              then _ else _) = some p2
            rw [if_pos hns]
            show (collectRun (max n1 n2) _ _ (a :: seen)).bind _ = some p2
            rw [collectRun_mono_le (le_max_left n1 n2) hn1]
            exact collectRun_mono_le (le_max_right n1 n2) hn2
          · obtain ⟨n, p, hn⟩ := ihxs dsym st (a :: seen) hcl
              (fun b hb => hok b (List.mem_cons_of_mem a hb))
              (le_trans (unseen_cons_le U a seen) hle)
            refine ⟨n + 1, p, ?_⟩
            show (if a ∈ seen then _ else _) = some p
            rw [if_neg ha]
            show (if (st.scopes ((st.syms a).containing_scope)).is_namespace_scope = true
              then _ else _) = some p
            rw [if_neg hns]
            exact hn
    have hsym : ∀ (d : Nat) (skipAliases : Bool) (st : SafetyState) (seen : List Nat),
        Closed st U → d ∈ U → unseen U seen ≤ c →
        ∃ n p, collectRun n (.sym d skipAliases) st seen = some p := by
      intro d skipAliases st seen hcl hd hle
      have hok : ∀ a ∈ (if skipAliases then [d]
          else st.aliases ((st.syms d).obj_id)), a ∈ U := by
        cases skipAliases with
        | true => intro a ha; simp at ha; subst ha; exact hd
        | false => intro a ha; exact (hcl d hd).1 a (by simpa using ha)
      obtain ⟨n, p, hn⟩ := houter _ d st seen hcl hok hle
      exact ⟨n + 1, p, hn⟩
    have hinner : ∀ (ys : List Nat) (dsym : Nat) (st : SafetyState) (seen : List Nat),
        Closed st U → (∀ b ∈ ys, b ∈ U) → unseen U seen ≤ c →
        ∃ n p, collectRun n (.inner dsym ys) st seen = some p := by
      intro ys
      induction ys with
      | nil => exact fun dsym st seen _ _ _ => ⟨1, (st, seen), rfl⟩
      | cons b rest ihys =>
        intro dsym st seen hcl hok hle
        have hstat : StaticEq st (st.modifySym b fun s =>
            { s with namespace_stale_symbols := s.namespace_stale_symbols.erase dsym }) :=
          staticEq_modifySym st _ _ (fun _ => rfl) (fun _ => rfl) (fun _ => rfl)
            (fun _ => rfl) (fun _ => rfl)
        have hcl' := Closed.transport hstat hcl
        obtain ⟨n1, p1, hn1⟩ := hsym b false _ seen hcl' (hok b (List.mem_cons_self b rest)) hle
        have hsp1 := collectRun_spec hn1
        have hcl1 := Closed.transport hsp1.1 hcl'
        obtain ⟨n2, p2, hn2⟩ := ihys dsym p1.1 p1.2 hcl1
          (fun x hx => hok x (List.mem_cons_of_mem b hx))
          (le_trans (unseen_le_of_subset U hsp1.2) hle)
        refine ⟨max n1 n2 + 1, p2, ?_⟩
        show (collectRun (max n1 n2) (.sym b false) _ seen).bind _ = some p2
        rw [collectRun_mono_le (le_max_left n1 n2) hn1]
        exact collectRun_mono_le (le_max_right n1 n2) hn2
    intro call st seen hcl hok hle
    match call with
    | .sym d sk => exact hsym d sk st seen hcl hok hle
    | .outer d xs => exact houter xs d st seen hcl hok hle
    | .inner d ys => exact hinner ys d st seen hcl hok hle

/-- Fuel adequacy for the staleness-propagation pass: on a closed finite
universe, every propagation call succeeds with some fuel. -/
theorem staleRun_adequate (U : Finset Nat) (u : Nat) :
    ∀ (c : Nat) (call : StaleCall) (st : SafetyState) (seen : List Nat),
      Closed st U →
      (match call with
        | .deps d _ => d ∈ U
        | .depsList xs => ∀ a ∈ xs, a ∈ U
        | .parents d _ => d ∈ U
        | .parentsList _ xs => ∀ a ∈ xs, a ∈ U
        | .children d _ => d ∈ U) →
      unseen U seen ≤ c → ∃ n p, staleRun u n call st seen = some p := by
  intro c
  induction c using Nat.strong_induction_on with
  | _ c IH =>
    have hdepsF : ∀ (d : Nat) (st : SafetyState) (seen : List Nat),
        Closed st U → d ∈ U → unseen U seen ≤ c →
        ∃ n p, staleRun u n (.deps d false) st seen = some p := by
      intro d st seen hcl hd hle
      by_cases hmem : d ∈ seen
      · exact ⟨1, (st, seen), by
          show (if false = false ∧ d ∈ seen then some (st, seen) else _) = some (st, seen)
          rw [if_pos ⟨rfl, hmem⟩]⟩
      · have hlt : unseen U (d :: seen) < c := lt_of_lt_of_le (unseen_cons_lt U hd hmem) hle
        by_cases hmk : d ∉ st.updated_symbols ∧ st.should_mark_stale d u = true
        · obtain ⟨n1, p1, hn1⟩ := IH _ hlt (.parents d true)
            (st.modifySym d fun s =>
              { s with fresher_ancestors := insert u s.fresher_ancestors,
                       required_cell_num := st.cell_counter })
            (d :: seen)
            (Closed.transport (staticEq_modifySym st _ _ (fun _ => rfl) (fun _ => rfl)
              (fun _ => rfl) (fun _ => rfl) (fun _ => rfl)) hcl) hd (le_refl _)
          have hsp1 := staleRun_spec hn1
          have hcl1 := Closed.transport hsp1.1 (Closed.transport
            (staticEq_modifySym st _ _ (fun _ => rfl) (fun _ => rfl)
              (fun _ => rfl) (fun _ => rfl) (fun _ => rfl)) hcl)
          have hlt1 : unseen U p1.2 < c :=
            lt_of_le_of_lt (unseen_le_of_subset U hsp1.2) hlt
          obtain ⟨n2, p2, hn2⟩ := IH _ hlt1 (.children d true) p1.1 p1.2 hcl1 hd (le_refl _)
          have hsp2 := staleRun_spec hn2
          have hcl2 := Closed.transport hsp2.1 hcl1
          have hlt2 : unseen U p2.2 < c :=
            lt_of_le_of_lt (unseen_le_of_subset U hsp2.2) hlt1
          obtain ⟨n3, p3, hn3⟩ := IH _ hlt2 (.depsList (nonClassToInstanceChildren p2.1 u d))
            p2.1 p2.2 hcl2
            (fun y hy => (hcl2 d hd).2.1 y (nonClassToInstanceChildren_subset y hy)) (le_refl _)
          refine ⟨max n1 (max n2 n3) + 1, p3, ?_⟩
          show (if false = false ∧ d ∈ seen then some (st, seen) else _) = some p3
          rw [if_neg (fun hc => hmem hc.2)]
          show Option.bind (if d ∉ st.updated_symbols ∧ st.should_mark_stale d u = true
            then _ else _) _ = some p3
          rw [if_pos hmk]
          show ((staleRun u (max n1 (max n2 n3)) (.parents d true) _ (d :: seen)).bind _).bind _
            = some p3
          rw [staleRun_mono_le (le_max_left _ _) hn1]
          show ((staleRun u (max n1 (max n2 n3)) (.children d true) p1.1 p1.2).bind _) = some p3
          rw [staleRun_mono_le (le_trans (le_max_left _ _) (le_max_right _ _)) hn2]
          exact staleRun_mono_le (le_trans (le_max_right _ _) (le_max_right _ _)) hn3
        · obtain ⟨n3, p3, hn3⟩ := IH _ hlt (.depsList (nonClassToInstanceChildren st u d))
            st (d :: seen) hcl
            (fun y hy => (hcl d hd).2.1 y (nonClassToInstanceChildren_subset y hy)) (le_refl _)
          refine ⟨n3 + 1, p3, ?_⟩
          show (if false = false ∧ d ∈ seen then some (st, seen) else _) = some p3
          rw [if_neg (fun hc => hmem hc.2)]
          show Option.bind (if d ∉ st.updated_symbols ∧ st.should_mark_stale d u = true
            then _ else _) _ = some p3
          rw [if_neg hmk]
          exact hn3
    have hparF : ∀ (d : Nat) (st : SafetyState) (seen : List Nat),
        Closed st U → d ∈ U → unseen U seen ≤ c →
        ∃ n p, staleRun u n (.parents d false) st seen = some p := by
      intro d st seen hcl hd hle
      by_cases hmem : d ∈ seen
      · exact ⟨1, (st, seen), by
          show (if false = false ∧ d ∈ seen then some (st, seen) else _) = some (st, seen)
          rw [if_pos ⟨rfl, hmem⟩]⟩
      · have hlt : unseen U (d :: seen) < c := lt_of_lt_of_le (unseen_cons_lt U hd hmem) hle
        by_cases hns : (st.scopes ((st.syms d).containing_scope)).is_namespace_scope = true
        · obtain ⟨n1, p1, hn1⟩ := IH _ hlt
            (.parentsList d (st.aliases ((st.scopes ((st.syms d).containing_scope)).obj_id)))
            st (d :: seen) hcl ((hcl d hd).2.2.1) (le_refl _)
          refine ⟨n1 + 1, p1, ?_⟩
          show (if false = false ∧ d ∈ seen then some (st, seen) else _) = some p1
          rw [if_neg (fun hc => hmem hc.2)]
          show (if (st.scopes ((st.syms d).containing_scope)).is_namespace_scope = true
            then _ else _) = some p1
          rw [if_pos hns]
          exact hn1
        · refine ⟨1, (st, d :: seen), ?_⟩
          show (if false = false ∧ d ∈ seen then some (st, seen) else _) = some (st, d :: seen)
          rw [if_neg (fun hc => hmem hc.2)]
          show (if (st.scopes ((st.syms d).containing_scope)).is_namespace_scope = true
            then _ else _) = some (st, d :: seen)
          rw [if_neg hns]
    have hchF : ∀ (d : Nat) (st : SafetyState) (seen : List Nat),
        Closed st U → d ∈ U → unseen U seen ≤ c →
        ∃ n p, staleRun u n (.children d false) st seen = some p := by
      intro d st seen hcl hd hle
      by_cases hmem : d ∈ seen
      · exact ⟨1, (st, seen), by
          show (if false = false ∧ d ∈ seen then some (st, seen) else _) = some (st, seen)
          rw [if_pos ⟨rfl, hmem⟩]⟩
      · have hlt : unseen U (d :: seen) < c := lt_of_lt_of_le (unseen_cons_lt U hd hmem) hle
        cases hmatch : st.namespaces ((st.syms d).obj_id) with
        | none =>
          refine ⟨1, (st, d :: seen), ?_⟩
          show (if false = false ∧ d ∈ seen then some (st, seen) else _) = some (st, d :: seen)
          rw [if_neg (fun hc => hmem hc.2)]
          show (match st.namespaces ((st.syms d).obj_id) with
            | none => some (st, d :: seen)
            | some scId => staleRun u 0 (.depsList ((st.scopes scId).symbols_this_indentation))
                st (d :: seen)) = some (st, d :: seen)
          rw [hmatch]
        | some scId =>
          have hmembers : ∀ y ∈ (st.scopes scId).symbols_this_indentation, y ∈ U := by
            have h4 := (hcl d hd).2.2.2
            rw [hmatch] at h4
            exact h4
          obtain ⟨n1, p1, hn1⟩ := IH _ hlt
            (.depsList ((st.scopes scId).symbols_this_indentation)) st (d :: seen)
            hcl hmembers (le_refl _)
          refine ⟨n1 + 1, p1, ?_⟩
          show (if false = false ∧ d ∈ seen then some (st, seen) else _) = some p1
          rw [if_neg (fun hc => hmem hc.2)]
          show (match st.namespaces ((st.syms d).obj_id) with
            | none => some (st, d :: seen)
            | some scId => staleRun u n1 (.depsList ((st.scopes scId).symbols_this_indentation))
                st (d :: seen)) = some p1
          rw [hmatch]
          exact hn1
    have hdepsList : ∀ (xs : List Nat) (st : SafetyState) (seen : List Nat),
        Closed st U → (∀ a ∈ xs, a ∈ U) → unseen U seen ≤ c →
        ∃ n p, staleRun u n (.depsList xs) st seen = some p := by
      intro xs
      induction xs with
      | nil => exact fun st seen _ _ _ => ⟨1, (st, seen), rfl⟩
      | cons a rest ihxs =>
        intro st seen hcl hok hle
        obtain ⟨n1, p1, hn1⟩ := hdepsF a st seen hcl (hok a (List.mem_cons_self a rest)) hle
        have hsp1 := staleRun_spec hn1
        obtain ⟨n2, p2, hn2⟩ := ihxs p1.1 p1.2 (Closed.transport hsp1.1 hcl)
          (fun b hb => hok b (List.mem_cons_of_mem a hb))
          (le_trans (unseen_le_of_subset U hsp1.2) hle)
        refine ⟨max n1 n2 + 1, p2, ?_⟩
        show (staleRun u (max n1 n2) (.deps a false) st seen).bind _ = some p2
        rw [staleRun_mono_le (le_max_left _ _) hn1]
        exact staleRun_mono_le (le_max_right _ _) hn2
    have hparList : ∀ (xs : List Nat) (d : Nat) (st : SafetyState) (seen : List Nat),
        Closed st U → (∀ a ∈ xs, a ∈ U) → unseen U seen ≤ c →
        ∃ n p, staleRun u n (.parentsList d xs) st seen = some p := by
      intro xs
      induction xs with
      | nil => exact fun d st seen _ _ _ => ⟨1, (st, seen), rfl⟩
      | cons ca rest ihxs =>
        intro d st seen hcl hok hle
        have hcaU : ca ∈ U := hok ca (List.mem_cons_self ca rest)
        have hcl0 : Closed (st.modifySym ca fun s =>
            { s with namespace_stale_symbols := insert d s.namespace_stale_symbols }) U :=
          Closed.transport (staticEq_modifySym st _ _ (fun _ => rfl) (fun _ => rfl)
            (fun _ => rfl) (fun _ => rfl) (fun _ => rfl)) hcl
        obtain ⟨n1, p1, hn1⟩ := hparF ca _ seen hcl0 hcaU hle
        have hsp1 := staleRun_spec hn1
        have hcl1 := Closed.transport hsp1.1 hcl0
        have hle1 : unseen U p1.2 ≤ c := le_trans (unseen_le_of_subset U hsp1.2) hle
        obtain ⟨n2, p2, hn2⟩ := hdepsList (nonClassToInstanceChildren p1.1 u ca) p1.1 p1.2
          hcl1 (fun y hy => (hcl1 ca hcaU).2.1 y (nonClassToInstanceChildren_subset y hy)) hle1
        have hsp2 := staleRun_spec hn2
        have hcl2 := Closed.transport hsp2.1 hcl1
        have hle2 : unseen U p2.2 ≤ c := le_trans (unseen_le_of_subset U hsp2.2) hle1
        obtain ⟨n3, p3, hn3⟩ := ihxs d p2.1 p2.2 hcl2
          (fun b hb => hok b (List.mem_cons_of_mem ca hb)) hle2
        refine ⟨max n1 (max n2 n3) + 1, p3, ?_⟩
        show (staleRun u (max n1 (max n2 n3)) (.parents ca false) _ seen).bind _ = some p3
        rw [staleRun_mono_le (le_max_left _ _) hn1]
        show (staleRun u (max n1 (max n2 n3)) (.depsList _) p1.1 p1.2).bind _ = some p3
        rw [staleRun_mono_le (le_trans (le_max_left _ _) (le_max_right _ _)) hn2]
        exact staleRun_mono_le (le_trans (le_max_right _ _) (le_max_right _ _)) hn3
    have hparT : ∀ (d : Nat) (st : SafetyState) (seen : List Nat),
        Closed st U → d ∈ U → unseen U seen ≤ c →
        ∃ n p, staleRun u n (.parents d true) st seen = some p := by
      intro d st seen hcl hd hle
      have hle' : unseen U (d :: seen) ≤ c := le_trans (unseen_cons_le U d seen) hle
      by_cases hns : (st.scopes ((st.syms d).containing_scope)).is_namespace_scope = true
      · obtain ⟨n1, p1, hn1⟩ := hparList
          (st.aliases ((st.scopes ((st.syms d).containing_scope)).obj_id)) d st (d :: seen)
          hcl ((hcl d hd).2.2.1) hle'
        refine ⟨n1 + 1, p1, ?_⟩
        show (if true = false ∧ d ∈ seen then some (st, seen) else _) = some p1
        rw [if_neg (by simp)]
        show (if (st.scopes ((st.syms d).containing_scope)).is_namespace_scope = true
          then _ else _) = some p1
        rw [if_pos hns]
        exact hn1
      · refine ⟨1, (st, d :: seen), ?_⟩
        show (if true = false ∧ d ∈ seen then some (st, seen) else _) = some (st, d :: seen)
        rw [if_neg (by simp)]
        show (if (st.scopes ((st.syms d).containing_scope)).is_namespace_scope = true
          then _ else _) = some (st, d :: seen)
        rw [if_neg hns]
    have hchT : ∀ (d : Nat) (st : SafetyState) (seen : List Nat),
        Closed st U → d ∈ U → unseen U seen ≤ c →
        ∃ n p, staleRun u n (.children d true) st seen = some p := by
      intro d st seen hcl hd hle
      have hle' : unseen U (d :: seen) ≤ c := le_trans (unseen_cons_le U d seen) hle
      cases hmatch : st.namespaces ((st.syms d).obj_id) with
      | none =>
        refine ⟨1, (st, d :: seen), ?_⟩
        show (if true = false ∧ d ∈ seen then some (st, seen) else _) = some (st, d :: seen)
        rw [if_neg (by simp)]
        show (match st.namespaces ((st.syms d).obj_id) with
          | none => some (st, d :: seen)
          | some scId => staleRun u 0 (.depsList ((st.scopes scId).symbols_this_indentation))
              st (d :: seen)) = some (st, d :: seen)
        rw [hmatch]
      | some scId =>
        have hmembers : ∀ y ∈ (st.scopes scId).symbols_this_indentation, y ∈ U := by
          have h4 := (hcl d hd).2.2.2
          rw [hmatch] at h4
          exact h4
        obtain ⟨n1, p1, hn1⟩ := hdepsList ((st.scopes scId).symbols_this_indentation)
          st (d :: seen) hcl hmembers hle'
        refine ⟨n1 + 1, p1, ?_⟩
        show (if true = false ∧ d ∈ seen then some (st, seen) else _) = some p1
        rw [if_neg (by simp)]
        show (match st.namespaces ((st.syms d).obj_id) with
          | none => some (st, d :: seen)
          | some scId => staleRun u n1 (.depsList ((st.scopes scId).symbols_this_indentation))
              st (d :: seen)) = some p1
        rw [hmatch]
        exact hn1
    have hdepsT : ∀ (d : Nat) (st : SafetyState) (seen : List Nat),
        Closed st U → d ∈ U → unseen U seen ≤ c →
        ∃ n p, staleRun u n (.deps d true) st seen = some p := by
      intro d st seen hcl hd hle
      have hle' : unseen U (d :: seen) ≤ c := le_trans (unseen_cons_le U d seen) hle
      by_cases hmk : d ∉ st.updated_symbols ∧ st.should_mark_stale d u = true
      · have hcl0 : Closed (st.modifySym d fun s =>
            { s with fresher_ancestors := insert u s.fresher_ancestors,
                     required_cell_num := st.cell_counter }) U :=
          Closed.transport (staticEq_modifySym st _ _ (fun _ => rfl) (fun _ => rfl)
            (fun _ => rfl) (fun _ => rfl) (fun _ => rfl)) hcl
        obtain ⟨n1, p1, hn1⟩ := hparT d _ (d :: seen) hcl0 hd hle'
        have hsp1 := staleRun_spec hn1
        have hcl1 := Closed.transport hsp1.1 hcl0
        have hle1 : unseen U p1.2 ≤ c := le_trans (unseen_le_of_subset U hsp1.2) hle'
        obtain ⟨n2, p2, hn2⟩ := hchT d p1.1 p1.2 hcl1 hd hle1
        have hsp2 := staleRun_spec hn2
        have hcl2 := Closed.transport hsp2.1 hcl1
        have hle2 : unseen U p2.2 ≤ c := le_trans (unseen_le_of_subset U hsp2.2) hle1
        obtain ⟨n3, p3, hn3⟩ := hdepsList (nonClassToInstanceChildren p2.1 u d) p2.1 p2.2
          hcl2 (fun y hy => (hcl2 d hd).2.1 y (nonClassToInstanceChildren_subset y hy)) hle2
        refine ⟨max n1 (max n2 n3) + 1, p3, ?_⟩
        show (if true = false ∧ d ∈ seen then some (st, seen) else _) = some p3
        rw [if_neg (by simp)]
        show Option.bind (if d ∉ st.updated_symbols ∧ st.should_mark_stale d u = true
          then _ else _) _ = some p3
        rw [if_pos hmk]
        show ((staleRun u (max n1 (max n2 n3)) (.parents d true) _ (d :: seen)).bind _).bind _
          = some p3
        rw [staleRun_mono_le (le_max_left _ _) hn1]
        show ((staleRun u (max n1 (max n2 n3)) (.children d true) p1.1 p1.2).bind _) = some p3
        rw [staleRun_mono_le (le_trans (le_max_left _ _) (le_max_right _ _)) hn2]
        exact staleRun_mono_le (le_trans (le_max_right _ _) (le_max_right _ _)) hn3
      · obtain ⟨n3, p3, hn3⟩ := hdepsList (nonClassToInstanceChildren st u d) st (d :: seen)
          hcl (fun y hy => (hcl d hd).2.1 y (nonClassToInstanceChildren_subset y hy)) hle'
        refine ⟨n3 + 1, p3, ?_⟩
        show (if true = false ∧ d ∈ seen then some (st, seen) else _) = some p3
        rw [if_neg (by simp)]
        show Option.bind (if d ∉ st.updated_symbols ∧ st.should_mark_stale d u = true
          then _ else _) _ = some p3
        rw [if_neg hmk]
        exact hn3
    intro call st seen hcl hok hle
    match call with
    | .deps d false => exact hdepsF d st seen hcl hok hle
    | .deps d true => exact hdepsT d st seen hcl hok hle
    | .depsList xs => exact hdepsList xs st seen hcl hok hle
    | .parents d false => exact hparF d st seen hcl hok hle
    | .parents d true => exact hparT d st seen hcl hok hle
    | .parentsList d xs => exact hparList xs d st seen hcl hok hle
    | .children d false => exact hchF d st seen hcl hok hle
    | .children d true => exact hchT d st seen hcl hok hle

/-- Fuel adequacy for `_propagate_refresh_to_namespace_parents`. -/
theorem refreshRun_adequate (U : Finset Nat) :
    ∀ (c : Nat) (call : RefreshCall) (st : SafetyState) (seen : List Nat),
      Closed st U →
      (match call with
        | .node s => s ∈ U
        | .outer _ xs => ∀ a ∈ xs, a ∈ U
        | .inner _ ys => ∀ b ∈ ys, b ∈ U) →
      unseen U seen ≤ c → ∃ n p, refreshRun n call st seen = some p := by
  intro c
  induction c using Nat.strong_induction_on with
  | _ c IH =>
    have hnode : ∀ (s : Nat) (st : SafetyState) (seen : List Nat),
        Closed st U → s ∈ U → unseen U seen ≤ c →
        ∃ n p, refreshRun n (.node s) st seen = some p := by
      intro s st seen hcl hs hle
      by_cases hmem : s ∈ seen
      · exact ⟨1, (st, seen), by
          show (if s ∈ seen then some (st, seen) else _) = some (st, seen)
          rw [if_pos hmem]⟩
      · have hlt : unseen U (s :: seen) < c := lt_of_lt_of_le (unseen_cons_lt U hs hmem) hle
        obtain ⟨n1, p1, hn1⟩ := IH _ hlt (.outer s (st.aliases ((st.syms s).obj_id)))
          st (s :: seen) hcl ((hcl s hs).1) (le_refl _)
        refine ⟨n1 + 1, p1, ?_⟩
        show (if s ∈ seen then some (st, seen) else _) = some p1
        rw [if_neg hmem]
        exact hn1
    have hinner : ∀ (ys : List Nat) (s : Nat) (st : SafetyState) (seen : List Nat),
        Closed st U → (∀ b ∈ ys, b ∈ U) → unseen U seen ≤ c →
        ∃ n p, refreshRun n (.inner s ys) st seen = some p := by
      intro ys
      induction ys with
      | nil => exact fun s st seen _ _ _ => ⟨1, (st, seen), rfl⟩
      | cons al rest ihys =>
        intro s st seen hcl hok hle
        have halU : al ∈ U := hok al (List.mem_cons_self al rest)
        have hcl0 : Closed (refreshTouch st al s) U :=
          Closed.transport (RStep.touch st al s).staticEq hcl
        obtain ⟨n1, p1, hn1⟩ := hnode al _ seen hcl0 halU hle
        have hsp1 := refreshRun_spec hn1
        have hcl1 := Closed.transport (rtrans_staticEq hsp1.1) hcl0
        obtain ⟨n2, p2, hn2⟩ := ihys s p1.1 p1.2 hcl1
          (fun b hb => hok b (List.mem_cons_of_mem al hb))
          (le_trans (unseen_le_of_subset U hsp1.2) hle)
        refine ⟨max n1 n2 + 1, p2, ?_⟩
        show (refreshRun (max n1 n2) (.node al) (refreshTouch st al s) seen).bind _ = some p2
        rw [refreshRun_mono_le (le_max_left _ _) hn1]
        exact refreshRun_mono_le (le_max_right _ _) hn2
    have houter : ∀ (xs : List Nat) (s : Nat) (st : SafetyState) (seen : List Nat),
        Closed st U → (∀ a ∈ xs, a ∈ U) → unseen U seen ≤ c →
        ∃ n p, refreshRun n (.outer s xs) st seen = some p := by
      intro xs
      induction xs with
      | nil => exact fun s st seen _ _ _ => ⟨1, (st, seen), rfl⟩
      | cons sa rest ihxs =>
        intro s st seen hcl hok hle
        have hsaU : sa ∈ U := hok sa (List.mem_cons_self sa rest)
        by_cases hns : (st.scopes ((st.syms sa).containing_scope)).is_namespace_scope = true
        · have hstat : StaticEq st (st.modifyScope ((st.syms sa).containing_scope)
              fun sc => { sc with max_defined_timestamp := st.cell_counter }) :=
            staticEq_modifyScope st _ _ (fun _ => rfl) (fun _ => rfl) (fun _ => rfl)
              (fun _ => rfl)
          have hcl' := Closed.transport hstat hcl
          obtain ⟨n1, p1, hn1⟩ := hinner
            ((st.modifyScope ((st.syms sa).containing_scope)
              fun sc => { sc with max_defined_timestamp := st.cell_counter }).aliases
              (((st.modifyScope ((st.syms sa).containing_scope)
              fun sc => { sc with max_defined_timestamp := st.cell_counter }).scopes
              ((st.syms sa).containing_scope)).obj_id)) s _ seen hcl' ((hcl' sa hsaU).2.2.1) hle
          have hsp1 := refreshRun_spec hn1
          have hcl1 := Closed.transport (rtrans_staticEq hsp1.1) hcl'
          obtain ⟨n2, p2, hn2⟩ := ihxs s p1.1 p1.2 hcl1
            (fun b hb => hok b (List.mem_cons_of_mem sa hb))
            (le_trans (unseen_le_of_subset U hsp1.2) hle)
          refine ⟨max n1 n2 + 1, p2, ?_⟩
          show (if (st.scopes ((st.syms sa).containing_scope)).is_namespace_scope = true
            then _ else _) = some p2
          rw [if_pos hns]
          show (refreshRun (max n1 n2) (.inner s _) _ seen).bind _ = some p2
          rw [refreshRun_mono_le (le_max_left _ _) hn1]
          exact refreshRun_mono_le (le_max_right _ _) hn2
        · obtain ⟨n2, p2, hn2⟩ := ihxs s st seen hcl
            (fun b hb => hok b (List.mem_cons_of_mem sa hb)) hle
          refine ⟨n2 + 1, p2, ?_⟩
          show (if (st.scopes ((st.syms sa).containing_scope)).is_namespace_scope = true
            then _ else _) = some p2
          rw [if_neg hns]
          exact hn2
    intro call st seen hcl hok hle
    match call with
    | .node s => exact hnode s st seen hcl hok hle
    | .outer s xs => exact houter xs s st seen hcl hok hle
    | .inner s ys => exact hinner ys s st seen hcl hok hle

/-- Every symbol in the seen-set produced by pass 1 lies in the closed
universe. -/
theorem collectRun_seenU {U : Finset Nat} {n : Nat} : ∀ {call : CollectCall}
    {st : SafetyState} {seen : List Nat} {p : SafetyState × List Nat},
    collectRun n call st seen = some p → Closed st U →
    (match call with
      | .sym d _ => d ∈ U
      | .outer _ xs => ∀ a ∈ xs, a ∈ U
      | .inner _ ys => ∀ b ∈ ys, b ∈ U) →
    (∀ x ∈ seen, x ∈ U) → ∀ x ∈ p.2, x ∈ U := by
  induction n with
  | zero => intro call st seen p h; simp [collectRun] at h
  | succ n ih =>
    intro call st seen p h hcl hok hseen
    match call with
    | .sym d sk =>
      simp only [collectRun] at h
      refine ih h hcl ?_ hseen
      cases sk with
      | true => intro a ha; simp at ha; subst ha; exact hok
      | false => intro a ha; exact (hcl d hok).1 a (by simpa using ha)
    | .outer d [] =>
      simp only [collectRun, Option.some.injEq] at h
      exact h ▸ hseen
    | .outer d (a :: rest) =>
      simp only [collectRun] at h
      split at h
      · exact ih h hcl (fun b hb => hok b (List.mem_cons_of_mem a hb)) hseen
      · have haU : a ∈ U := hok a (List.mem_cons_self a rest)
        have hseen' : ∀ x ∈ (a :: seen), x ∈ U := by
          intro x hx
          rcases List.mem_cons.mp hx with hx | hx
          · exact hx ▸ haU
          · exact hseen x hx
        split at h
        · obtain ⟨q, hq1, hq2⟩ := Option.bind_eq_some.mp h
          have hstat : StaticEq st (st.modifyScope ((st.syms a).containing_scope)
              fun sc => { sc with max_defined_timestamp := st.cell_counter }) :=
            staticEq_modifyScope st _ _ (fun _ => rfl) (fun _ => rfl) (fun _ => rfl)
              (fun _ => rfl)
          have hcl' := Closed.transport hstat hcl
          have hq2' := ih hq1 hcl' ((hcl' a haU).2.2.1) hseen'
          exact ih hq2 (Closed.transport (collectRun_spec hq1).1 hcl')
            (fun b hb => hok b (List.mem_cons_of_mem a hb)) hq2'
        · exact ih h hcl (fun b hb => hok b (List.mem_cons_of_mem a hb)) hseen'
    | .inner d [] =>
      simp only [collectRun, Option.some.injEq] at h
      exact h ▸ hseen
    | .inner d (b :: rest) =>
      simp only [collectRun] at h
      obtain ⟨q, hq1, hq2⟩ := Option.bind_eq_some.mp h
      have hstat : StaticEq st (st.modifySym b fun s =>
          { s with namespace_stale_symbols := s.namespace_stale_symbols.erase d }) :=
        staticEq_modifySym st _ _ (fun _ => rfl) (fun _ => rfl) (fun _ => rfl)
          (fun _ => rfl) (fun _ => rfl)
      have hcl' := Closed.transport hstat hcl
      have hq1' := ih hq1 hcl' (hok b (List.mem_cons_self b rest)) hseen
      exact ih hq2 (Closed.transport (collectRun_spec hq1).1 hcl')
        (fun x hx => hok x (List.mem_cons_of_mem b hx)) hq1'

/-- Every element of the `aliases_to_consider` list handed to the outer
loop of pass 1 ends up in the final seen-set. -/
theorem collectRun_outer_covers {n : Nat} : ∀ {dsym : Nat} {xs : List Nat}
    {st : SafetyState} {seen : List Nat} {p : SafetyState × List Nat},
    collectRun n (.outer dsym xs) st seen = some p → ∀ a ∈ xs, a ∈ p.2 := by
  induction n with
  | zero => intro dsym xs st seen p h; simp [collectRun] at h
  | succ n ih =>
    intro dsym xs st seen p h a ha
    match xs with
    | [] => simp at ha
    | b :: rest =>
      simp only [collectRun] at h
      rcases List.mem_cons.mp ha with hab | harest
      · subst hab
        split at h
        · exact (collectRun_spec h).2 (by assumption)
        · split at h
          · obtain ⟨q, hq1, hq2⟩ := Option.bind_eq_some.mp h
            exact (collectRun_spec hq2).2 ((collectRun_spec hq1).2
              (List.mem_cons_self a seen))
          · exact (collectRun_spec h).2 (List.mem_cons_self a seen)
      · split at h
        · exact ih h a harest
        · split at h
          · obtain ⟨q, hq1, hq2⟩ := Option.bind_eq_some.mp h
            exact ih hq2 a harest
          · exact ih h a harest

theorem refresh_mono_le {n m : Nat} (hnm : n ≤ m) {st : SafetyState} {s : Nat}
    {st' : SafetyState} (h : st.refresh s n = some st') : st.refresh s m = some st' := by
  simp only [SafetyState.refresh] at h ⊢
  obtain ⟨p, hp, hfst⟩ := Option.map_eq_some'.mp h
  rw [refreshRun_mono_le hnm hp]
  simp [hfst]

/-- Fuel adequacy for `DataSymbol.refresh`. -/
theorem refresh_adequate {U : Finset Nat} {st : SafetyState} {s : Nat}
    (hcl : Closed st U) (hs : s ∈ U) : ∃ n st', st.refresh s n = some st' := by
  have hstat : StaticEq st (st.modifySym s fun q =>
      { q with fresher_ancestors := ∅,
               defined_cell_num := st.cell_counter,
               required_cell_num := st.cell_counter,
               namespace_stale_symbols := ∅ }) :=
    staticEq_modifySym st _ _ (fun _ => rfl) (fun _ => rfl) (fun _ => rfl)
      (fun _ => rfl) (fun _ => rfl)
  obtain ⟨n, p, hn⟩ := refreshRun_adequate U (unseen U []) (.node s) _ []
    (Closed.transport hstat hcl) hs (le_refl _)
  exact ⟨n, p.1, by simp only [SafetyState.refresh]; rw [hn]; rfl⟩

/-- Fuel adequacy for the whole `UpdateProtocol.__call__` invocation: on
any finite symbol universe closed under the traversed maps — cyclic
aliasing and containment included — some fuel makes the full protocol
succeed. -/
theorem updateProtocol_adequate {U : Finset Nat} {st : SafetyState} {u : Nat}
    (mutated : Bool) (hcl : Closed st U) (hu : u ∈ U) :
    ∃ n st', updateProtocol st u mutated true n = some st' := by
  have hloop : ∀ (xs : List Nat), (∀ x ∈ xs, x ∈ U) →
      ∀ (st' : SafetyState) (seen' : List Nat), Closed st' U →
      ∃ n q, staleLoop u n xs st' seen' = some q ∧ Closed q.1 U := by
    intro xs
    induction xs with
    | nil => exact fun _ st' seen' hcl' => ⟨0, (st', seen'), rfl, hcl'⟩
    | cons d rest ihxs =>
      intro hxs st' seen' hcl'
      obtain ⟨n1, q1, h1⟩ := staleRun_adequate U u (unseen U seen') (.deps d true) st' seen'
        hcl' (hxs d (List.mem_cons_self d rest)) (le_refl _)
      have hclq := Closed.transport (staleRun_spec h1).1 hcl'
      obtain ⟨n2, q2, h2, hclq2⟩ := ihxs (fun x hx => hxs x (List.mem_cons_of_mem d hx))
        q1.1 q1.2 hclq
      refine ⟨max n1 n2, q2, ?_, hclq2⟩
      show (staleRun u (max n1 n2) (.deps d true) st' seen').bind _ = some q2
      rw [staleRun_mono_le (le_max_left _ _) h1]
      exact staleLoop_mono_le (le_max_right _ _) h2
  by_cases hcond : mutated = true ∨ (st.syms u).obj_id ≠ (st.syms u).cached_obj_id
  · obtain ⟨n1, p1, hn1⟩ := collectRun_adequate U (unseen U []) (.sym u (!mutated)) st []
      hcl hu (le_refl _)
    have hseenU : ∀ x ∈ p1.2, x ∈ U := collectRun_seenU hn1 hcl hu (by simp)
    have hcl1 : Closed p1.1 U := Closed.transport (collectRun_spec hn1).1 hcl
    have hcl2 : Closed { p1.1 with
        updated_symbols := p1.1.updated_symbols ∪ p1.2.toFinset } U := hcl1
    obtain ⟨n2, q, hq, hclq⟩ := hloop p1.2 hseenU _ p1.2 hcl2
    obtain ⟨n3, st3, h3⟩ := refresh_adequate hclq hu
    refine ⟨max n1 (max n2 n3), st3, ?_⟩
    show (if true = true ∧ (mutated = true ∨ (st.syms u).obj_id ≠ (st.syms u).cached_obj_id)
      then collectRun (max n1 (max n2 n3)) (.sym u (!mutated)) st [] else _).bind _ = some st3
    rw [if_pos ⟨rfl, hcond⟩, collectRun_mono_le (le_max_left _ _) hn1]
    show (staleLoop u (max n1 (max n2 n3)) p1.2 _ p1.2).bind _ = some st3
    rw [staleLoop_mono_le (le_trans (le_max_left _ _) (le_max_right _ _)) hq]
    exact refresh_mono_le (le_trans (le_max_right _ _) (le_max_right _ _)) h3
  · obtain ⟨n3, st3, h3⟩ := refresh_adequate
      (show Closed { st with updated_symbols := st.updated_symbols ∪ ([] : List Nat).toFinset } U
        from hcl) hu
    refine ⟨n3, st3, ?_⟩
    show (if true = true ∧ (mutated = true ∨ (st.syms u).obj_id ≠ (st.syms u).cached_obj_id)
      then collectRun n3 (.sym u (!mutated)) st [] else some (st, [])).bind _ = some st3
    rw [if_neg (fun hc => hcond hc.2)]
    exact h3

/-! ## Anatomy of the refresh steps

Field-level lemmas about `refreshTouch` and the reflexive-transitive
closure of `RStep`, leading to: refresh only shrinks
`namespace_stale_symbols`, never touches `required_cell_num`, only ever
rewrites `defined_cell_num`/`fresher_ancestors` to "now"/∅ — and a
re-execution of the whole propagation on its own output is a no-op. -/

theorem refreshTouch_syms_ne {st : SafetyState} {al x j : Nat} (h : j ≠ al) :
    (refreshTouch st al x).syms j = st.syms j := by
  simp only [refreshTouch]
  split <;> simp [SafetyState.modifySym, h]

theorem refreshTouch_scopes (st : SafetyState) (al x : Nat) :
    (refreshTouch st al x).scopes = st.scopes := by
  simp only [refreshTouch]
  split <;> rfl

theorem refreshTouch_cell_counter (st : SafetyState) (al x : Nat) :
    (refreshTouch st al x).cell_counter = st.cell_counter := by
  simp only [refreshTouch]
  split <;> rfl

theorem refreshTouch_ns_self (st : SafetyState) (al x : Nat) :
    ((refreshTouch st al x).syms al).namespace_stale_symbols =
      ((st.syms al).namespace_stale_symbols).erase x := by
  simp only [refreshTouch]
  split <;> simp [SafetyState.modifySym]

theorem refreshTouch_required_self (st : SafetyState) (al x : Nat) :
    ((refreshTouch st al x).syms al).required_cell_num =
      (st.syms al).required_cell_num := by
  simp only [refreshTouch]
  split <;> simp [SafetyState.modifySym]

/-- The two possible outcomes of one discard-then-maybe-bump step on the
touched alias: either the alias is still stale after the discard and
only the discard happened, or it is fresh and also got the bump. -/
theorem refreshTouch_self_cases (st : SafetyState) (al x : Nat) :
    ((refreshTouch st al x).syms al =
        { st.syms al with
          namespace_stale_symbols := ((st.syms al).namespace_stale_symbols).erase x } ∧
      ({ st.syms al with
          namespace_stale_symbols := ((st.syms al).namespace_stale_symbols).erase x }
        : DataSymbol).is_stale = true) ∨
    ((refreshTouch st al x).syms al =
        { st.syms al with
          namespace_stale_symbols := ((st.syms al).namespace_stale_symbols).erase x,
          defined_cell_num := st.cell_counter,
          fresher_ancestors := ∅ } ∧
      ({ st.syms al with
          namespace_stale_symbols := ((st.syms al).namespace_stale_symbols).erase x }
        : DataSymbol).is_stale = false) := by
  simp only [refreshTouch, SafetyState.modifySym_syms_self]
  split
  · left
    constructor
    · simp [SafetyState.modifySym]
    · assumption
  · right
    constructor
    · simp [SafetyState.modifySym]
    · simp_all

theorem SafetyState.modifySym_eta {st : SafetyState} {i : Nat} {f : DataSymbol → DataSymbol}
    (h : f (st.syms i) = st.syms i) : st.modifySym i f = st := by
  have hsyms : (fun j => if j = i then f (st.syms i) else st.syms j) = st.syms := by
    funext j
    by_cases hj : j = i
    · subst hj; simp [h]
    · simp [hj]
  show { st with syms := _ } = st
  rw [hsyms]

theorem SafetyState.modifyScope_eta {st : SafetyState} {i : Nat} {f : Scope → Scope}
    (h : f (st.scopes i) = st.scopes i) : st.modifyScope i f = st := by
  have hscopes : (fun j => if j = i then f (st.scopes i) else st.scopes j) = st.scopes := by
    funext j
    by_cases hj : j = i
    · subst hj; simp [h]
    · simp [hj]
  show { st with scopes := _ } = st
  rw [hscopes]

theorem Scope.eta_maxdef {sc : Scope} {v : Nat} (h : sc.max_defined_timestamp = v) :
    ({ sc with max_defined_timestamp := v } : Scope) = sc := by
  obtain ⟨f1, f2, f3, f4, f5⟩ := sc
  simp only at h
  subst h
  rfl

/-- The discard-then-maybe-bump step is a no-op on a state in which the
discarded member is already gone and the alias, when fresh, is already
bumped. -/
theorem refreshTouch_noop {st : SafetyState} {al x : Nat}
    (h1 : x ∉ (st.syms al).namespace_stale_symbols)
    (h2 : (st.syms al).is_stale = true ∨
      ((st.syms al).defined_cell_num = st.cell_counter ∧
        (st.syms al).fresher_ancestors = ∅)) :
    refreshTouch st al x = st := by
  have herase : ((st.syms al).namespace_stale_symbols).erase x =
      (st.syms al).namespace_stale_symbols := Finset.erase_eq_of_not_mem h1
  have hst1 : st.modifySym al (fun s =>
      { s with namespace_stale_symbols := s.namespace_stale_symbols.erase x }) = st := by
    apply SafetyState.modifySym_eta
    rw [herase]
  simp only [refreshTouch, hst1]
  rcases h2 with h2 | h2
  · rw [if_pos h2]
  · split
    · rfl
    · apply SafetyState.modifySym_eta
      rw [← h2.1, ← h2.2]

theorem rtrans_cc_eq {a b : SafetyState} (h : Relation.ReflTransGen RStep a b) :
    a.cell_counter = b.cell_counter := (rtrans_staticEq h).cc_eq

theorem rtrans_ns_subset {a b : SafetyState} (h : Relation.ReflTransGen RStep a b) :
    ∀ i, (b.syms i).namespace_stale_symbols ⊆ (a.syms i).namespace_stale_symbols := by
  induction h with
  | refl => exact fun i => Finset.Subset.refl _
  | tail _ hstep ih =>
    intro i
    cases hstep with
    | maxdef sc => exact ih i
    | touch al x =>
      by_cases hi : i = al
      · subst hi
        rw [refreshTouch_ns_self]
        exact Finset.Subset.trans (Finset.erase_subset x _) (ih i)
      · rw [refreshTouch_syms_ne hi]
        exact ih i

theorem rtrans_required_eq {a b : SafetyState} (h : Relation.ReflTransGen RStep a b) :
    ∀ i, (b.syms i).required_cell_num = (a.syms i).required_cell_num := by
  induction h with
  | refl => exact fun i => rfl
  | tail _ hstep ih =>
    intro i
    cases hstep with
    | maxdef sc => exact ih i
    | touch al x =>
      by_cases hi : i = al
      · subst hi
        rw [refreshTouch_required_self]
        exact ih i
      · rw [refreshTouch_syms_ne hi]
        exact ih i

theorem rtrans_def_fresh {a b : SafetyState} (h : Relation.ReflTransGen RStep a b) :
    ∀ i, ((b.syms i).defined_cell_num = (a.syms i).defined_cell_num ∧
        (b.syms i).fresher_ancestors = (a.syms i).fresher_ancestors) ∨
      ((b.syms i).defined_cell_num = b.cell_counter ∧
        (b.syms i).fresher_ancestors = ∅) := by
  induction h with
  | refl => exact fun i => Or.inl ⟨rfl, rfl⟩
  | tail hab hstep ih =>
    intro i
    cases hstep with
    | maxdef sc => exact ih i
    | touch al x =>
      rename_i bmid
      by_cases hi : i = al
      · subst hi
        rcases refreshTouch_self_cases bmid i x with ⟨heq, _⟩ | ⟨heq, _⟩
        · rw [heq]
          simpa [refreshTouch_cell_counter] using ih i
        · rw [heq]
          right
          exact ⟨(refreshTouch_cell_counter bmid i x).symm, rfl⟩
      · rw [refreshTouch_syms_ne hi]
        rcases ih i with hcase | hcase
        · exact Or.inl hcase
        · exact Or.inr ⟨hcase.1.trans (refreshTouch_cell_counter bmid al x).symm, hcase.2⟩

theorem rtrans_maxdef_cc {a b : SafetyState} (h : Relation.ReflTransGen RStep a b)
    {sc : Nat} (hm : (a.scopes sc).max_defined_timestamp = a.cell_counter) :
    (b.scopes sc).max_defined_timestamp = b.cell_counter := by
  induction h with
  | refl => exact hm
  | tail hab hstep ih =>
    cases hstep with
    | maxdef sc' =>
      rename_i bmid
      by_cases hsc : sc = sc'
      · subst hsc
        simp [SafetyState.modifyScope]
      · rw [SafetyState.modifyScope_scopes_ne bmid _ hsc]
        simpa [SafetyState.modifyScope] using ih
    | touch al x =>
      rename_i bmid
      rw [refreshTouch_scopes, refreshTouch_cell_counter]
      exact ih

/-- Along refresh steps, an alias that ends up fresh has either been
bumped to the current cell with cleared `fresher_ancestors`, or was
never touched at all. -/
theorem rtrans_key {a b : SafetyState} (h : Relation.ReflTransGen RStep a b) :
    ∀ i, (b.syms i).is_stale = false →
      ((b.syms i).defined_cell_num = b.cell_counter ∧
        (b.syms i).fresher_ancestors = ∅) ∨ b.syms i = a.syms i := by
  induction h with
  | refl => exact fun i _ => Or.inr rfl
  | tail hab hstep ih =>
    intro i hstale
    cases hstep with
    | maxdef sc =>
      rename_i bmid
      rcases ih i hstale with hcase | hcase
      · exact Or.inl hcase
      · exact Or.inr hcase
    | touch al x =>
      rename_i bmid
      by_cases hi : i = al
      · subst hi
        rcases refreshTouch_self_cases bmid i x with ⟨heq, hst⟩ | ⟨heq, hst⟩
        · rw [heq] at hstale
          rw [hstale] at hst
          exact absurd hst (by simp)
        · rw [heq]
          left
          exact ⟨(refreshTouch_cell_counter bmid i x).symm, rfl⟩
      · rw [refreshTouch_syms_ne hi]
        rcases ih i (by rwa [refreshTouch_syms_ne hi] at hstale) with hcase | hcase
        · exact Or.inl ⟨hcase.1.trans (refreshTouch_cell_counter bmid al x).symm, hcase.2⟩
        · exact Or.inr hcase

/-- Re-running any part of the refresh propagation on a state reachable
from its own output by further refresh steps changes nothing: every
discard finds the member already gone, every bump finds the alias
already bumped, every timestamp is already current. -/
theorem refreshRun_reruns {n : Nat} : ∀ {k : RefreshCall} {st : SafetyState}
    {seen : List Nat} {p : SafetyState × List Nat},
    refreshRun n k st seen = some p → ∀ {stF : SafetyState},
    Relation.ReflTransGen RStep p.1 stF → refreshRun n k stF seen = some (stF, p.2) := by
  induction n with
  | zero => intro k st seen p h; simp [refreshRun] at h
  | succ n ih =>
    intro k st seen p h stF hF
    match k with
    | .node self =>
      simp only [refreshRun] at h ⊢
      by_cases hmem : self ∈ seen
      · rw [if_pos hmem] at h
        simp only [Option.some.injEq] at h
        subst h
        rw [if_pos hmem]
      · rw [if_neg hmem] at h
        have hrt : Relation.ReflTransGen RStep st stF :=
          Relation.ReflTransGen.trans (refreshRun_spec h).1 hF
        have hstat := rtrans_staticEq hrt
        have hlist : stF.aliases ((stF.syms self).obj_id) =
            st.aliases ((st.syms self).obj_id) := by
          rw [← hstat.aliases_eq, ← hstat.obj_id_eq self]
        rw [if_neg hmem, hlist]
        exact ih h hF
    | .outer self [] =>
      simp only [refreshRun, Option.some.injEq] at h ⊢
      subst h
      rfl
    | .outer self (sa :: rest) =>
      simp only [refreshRun] at h ⊢
      by_cases hns : (st.scopes ((st.syms sa).containing_scope)).is_namespace_scope = true
      · rw [if_pos hns] at h
        obtain ⟨p1, hq1, hq2⟩ := Option.bind_eq_some.mp h
        have hrt1 : Relation.ReflTransGen RStep
            (st.modifyScope ((st.syms sa).containing_scope)
              fun sc => { sc with max_defined_timestamp := st.cell_counter }) stF :=
          Relation.ReflTransGen.trans (refreshRun_spec hq1).1
            (Relation.ReflTransGen.trans (refreshRun_spec hq2).1 hF)
        have hrt0 : Relation.ReflTransGen RStep st stF :=
          Relation.ReflTransGen.trans
            (Relation.ReflTransGen.single (RStep.maxdef st ((st.syms sa).containing_scope)))
            hrt1
        have hstat := rtrans_staticEq hrt0
        have hnsF : (stF.scopes ((stF.syms sa).containing_scope)).is_namespace_scope = true := by
          rw [← hstat.scope_ns_eq, ← hstat.cs_eq sa]
          exact hns
        rw [if_pos hnsF]
        have hcsF : (stF.syms sa).containing_scope = (st.syms sa).containing_scope :=
          (hstat.cs_eq sa).symm
        have hmF : (stF.scopes ((st.syms sa).containing_scope)).max_defined_timestamp =
            stF.cell_counter := by
          apply rtrans_maxdef_cc hrt1
          simp [SafetyState.modifyScope]
        have hetaF : stF.modifyScope ((stF.syms sa).containing_scope)
            (fun sc => { sc with max_defined_timestamp := stF.cell_counter }) = stF := by
          rw [hcsF]
          exact SafetyState.modifyScope_eta (Scope.eta_maxdef hmF)
        simp only [hetaF]
        have hlist : stF.aliases ((stF.scopes ((stF.syms sa).containing_scope)).obj_id) =
            (st.modifyScope ((st.syms sa).containing_scope)
              fun sc => { sc with max_defined_timestamp := st.cell_counter }).aliases
              (((st.modifyScope ((st.syms sa).containing_scope)
                fun sc => { sc with max_defined_timestamp := st.cell_counter }).scopes
                ((st.syms sa).containing_scope)).obj_id) := by
          rw [← hstat.aliases_eq, ← hstat.cs_eq sa, ← hstat.scope_obj_eq]
          simp [SafetyState.modifyScope]
        rw [hlist, ih hq1 (Relation.ReflTransGen.trans (refreshRun_spec hq2).1 hF)]
        exact ih hq2 hF
      · rw [if_neg hns] at h
        have hrt0 : Relation.ReflTransGen RStep st stF :=
          Relation.ReflTransGen.trans (refreshRun_spec h).1 hF
        have hstat := rtrans_staticEq hrt0
        have hnsF : ¬ (stF.scopes ((stF.syms sa).containing_scope)).is_namespace_scope
            = true := by
          rw [← hstat.scope_ns_eq, ← hstat.cs_eq sa]
          exact hns
        rw [if_neg hnsF]
        exact ih h hF
    | .inner self [] =>
      simp only [refreshRun, Option.some.injEq] at h ⊢
      subst h
      rfl
    | .inner self (al :: rest) =>
      simp only [refreshRun] at h ⊢
      obtain ⟨p1, hq1, hq2⟩ := Option.bind_eq_some.mp h
      have hrtB : Relation.ReflTransGen RStep (refreshTouch st al self) stF :=
        Relation.ReflTransGen.trans (refreshRun_spec hq1).1
          (Relation.ReflTransGen.trans (refreshRun_spec hq2).1 hF)
      have hrt0 : Relation.ReflTransGen RStep st stF :=
        Relation.ReflTransGen.trans
          (Relation.ReflTransGen.single (RStep.touch st al self)) hrtB
      have hTF : refreshTouch stF al self = stF := by
        apply refreshTouch_noop
        · have hB : self ∉ ((refreshTouch st al self).syms al).namespace_stale_symbols := by
            rw [refreshTouch_ns_self]
            exact Finset.not_mem_erase self _
          exact fun hmem => hB (rtrans_ns_subset hrtB al hmem)
        · by_cases hstF : (stF.syms al).is_stale = true
          · exact Or.inl hstF
          · right
            rcases rtrans_key hrtB al (by simpa using hstF) with hk | hk
            · exact hk
            · rcases refreshTouch_self_cases st al self with ⟨heq, hst⟩ | ⟨heq, hst⟩
              · rw [hk, heq] at hstF
                exact absurd hst hstF
              · rw [hk, heq]
                exact ⟨rtrans_cc_eq hrt0, rfl⟩
      rw [hTF, ih hq1 (Relation.ReflTransGen.trans (refreshRun_spec hq2).1 hF)]
      exact ih hq2 hF

theorem DataSymbol.eta_head {s : DataSymbol} {cc : Nat} (h1 : s.fresher_ancestors = ∅)
    (h2 : s.defined_cell_num = cc) (h3 : s.required_cell_num = cc)
    (h4 : s.namespace_stale_symbols = ∅) :
    ({ s with fresher_ancestors := ∅, defined_cell_num := cc, required_cell_num := cc,
              namespace_stale_symbols := ∅ } : DataSymbol) = s := by
  obtain ⟨g1, g2, g3, g4, g5, g6, g7, g8, g9⟩ := s
  simp only at h1 h2 h3 h4
  subst h2
  rw [h1, h3, h4]

/-- With `propagate=False`, the Update Protocol reduces to refreshing the
updated symbol: pass 1 is skipped, the updated-set union and the
dependents loop are vacuous. -/
theorem updateProtocol_propagate_false (st : SafetyState) (u : Nat) (m : Bool) (n : Nat) :
    updateProtocol st u m false n = st.refresh u n := by
  have hst2 : { st with updated_symbols := st.updated_symbols ∪ ([] : List Nat).toFinset }
      = st := by
    have hu : st.updated_symbols ∪ ([] : List Nat).toFinset = st.updated_symbols := by simp
    rw [hu]
  simp only [updateProtocol]
  rw [if_neg (by simp)]
  show (staleLoop u n []
    { st with updated_symbols := st.updated_symbols ∪ ([] : List Nat).toFinset } []).bind
    (fun q => q.1.refresh u n) = st.refresh u n
  rw [hst2]
  rfl

/-- Refreshing a just-refreshed symbol again (same cell) is a no-op:
the head reset rewrites the fields to values they already have, and the
upward propagation retraces the same traversal finding every discard
and bump already applied. -/
theorem refresh_idem {st : SafetyState} {u n : Nat} {st1 : SafetyState}
    (h : st.refresh u n = some st1) : st1.refresh u n = some st1 := by
  simp only [SafetyState.refresh] at h ⊢
  obtain ⟨p, hp, hfst⟩ := Option.map_eq_some'.mp h
  subst hfst
  have hrt := (refreshRun_spec hp).1
  have hcc : p.1.cell_counter = st.cell_counter := (rtrans_cc_eq hrt).symm
  have hreq : (p.1.syms u).required_cell_num = p.1.cell_counter := by
    rw [rtrans_required_eq hrt u]
    simp [SafetyState.modifySym, hcc]
  have hns : (p.1.syms u).namespace_stale_symbols = ∅ := by
    have hsub := rtrans_ns_subset hrt u
    simp only [SafetyState.modifySym_syms_self] at hsub
    exact Finset.subset_empty.mp hsub
  have hdef : (p.1.syms u).defined_cell_num = p.1.cell_counter := by
    rcases rtrans_def_fresh hrt u with ⟨h1, _⟩ | ⟨h1, _⟩
    · rw [h1]; simp [SafetyState.modifySym, hcc]
    · exact h1
  have hfr : (p.1.syms u).fresher_ancestors = ∅ := by
    rcases rtrans_def_fresh hrt u with ⟨_, h2⟩ | ⟨_, h2⟩
    · rw [h2]; simp [SafetyState.modifySym]
    · exact h2
  have hhead : p.1.modifySym u (fun s =>
      { s with fresher_ancestors := ∅,
               defined_cell_num := p.1.cell_counter,
               required_cell_num := p.1.cell_counter,
               namespace_stale_symbols := ∅ }) = p.1 :=
    SafetyState.modifySym_eta (DataSymbol.eta_head hfr hdef hreq hns)
  rw [hhead, refreshRun_reruns hp Relation.ReflTransGen.refl]
  rfl

/-- Invoking the Update Protocol with `propagate=False` twice in
succession stabilises after the first call: the second call returns the
first call's output unchanged. -/
theorem updateProtocol_propagate_false_idem {st : SafetyState} {u n : Nat}
    (m m' : Bool) {st1 : SafetyState} (h : updateProtocol st u m false n = some st1) :
    updateProtocol st1 u m' false n = some st1 := by
  rw [updateProtocol_propagate_false] at h
  rw [updateProtocol_propagate_false]
  exact refresh_idem h

/-- Core of claim C10: refresh never makes a fresh symbol stale, in any
state whose `required_cell_num` timestamps do not exceed the current
cell. -/
theorem refresh_preserves_not_stale {st : SafetyState} {s fuel : Nat} {st' : SafetyState}
    (hts : ∀ i, (st.syms i).required_cell_num ≤ st.cell_counter)
    (h : st.refresh s fuel = some st') :
    ∀ t, (st.syms t).is_stale = false → (st'.syms t).is_stale = false := by
  simp only [SafetyState.refresh] at h
  obtain ⟨p, hp, hfst⟩ := Option.map_eq_some'.mp h
  subst hfst
  have hrt := (refreshRun_spec hp).1
  have hcc : p.1.cell_counter = st.cell_counter := (rtrans_cc_eq hrt).symm
  have hstatic : StaticEq st p.1 :=
    (staticEq_modifySym st s (fun q =>
      { q with fresher_ancestors := ∅,
               defined_cell_num := st.cell_counter,
               required_cell_num := st.cell_counter,
               namespace_stale_symbols := ∅ }) (fun _ => rfl) (fun _ => rfl) (fun _ => rfl)
      (fun _ => rfl) (fun _ => rfl)).trans (rtrans_staticEq hrt)
  intro t ht
  by_cases hteq : t = s
  · subst hteq
    have hreq : (p.1.syms t).required_cell_num = p.1.cell_counter := by
      rw [rtrans_required_eq hrt t]
      simp [SafetyState.modifySym, hcc]
    have hns : (p.1.syms t).namespace_stale_symbols = ∅ := by
      have hsub := rtrans_ns_subset hrt t
      simp only [SafetyState.modifySym_syms_self] at hsub
      exact Finset.subset_empty.mp hsub
    have hdef : (p.1.syms t).defined_cell_num = p.1.cell_counter := by
      rcases rtrans_def_fresh hrt t with ⟨h1, _⟩ | ⟨h1, _⟩
      · rw [h1]; simp [SafetyState.modifySym, hcc]
      · exact h1
    simp [DataSymbol.is_stale, hreq, hns, hdef]
  · have hsymh : ((st.modifySym s fun q =>
        { q with fresher_ancestors := ∅,
                 defined_cell_num := st.cell_counter,
                 required_cell_num := st.cell_counter,
                 namespace_stale_symbols := ∅ }).syms t) = st.syms t :=
      SafetyState.modifySym_syms_ne st _ hteq
    have hreq : (p.1.syms t).required_cell_num = (st.syms t).required_cell_num := by
      rw [rtrans_required_eq hrt t, hsymh]
    by_cases hdw : (st.syms t).disable_warnings = true
    · have : (p.1.syms t).disable_warnings = true := by rw [← hstatic.dw_eq t]; exact hdw
      simp [DataSymbol.is_stale, this]
    · simp only [DataSymbol.is_stale, if_neg hdw, Bool.or_eq_false_iff,
        decide_eq_false_iff_not, not_lt] at ht
      have hdwp : ¬ (p.1.syms t).disable_warnings = true := by
        rw [← hstatic.dw_eq t]; exact hdw
      have hns0 : (st.syms t).namespace_stale_symbols = ∅ :=
        Finset.card_eq_zero.mp (Nat.le_zero.mp ht.2)
      have hns : (p.1.syms t).namespace_stale_symbols = ∅ := by
        have hsub := rtrans_ns_subset hrt t
        rw [hsymh, hns0] at hsub
        exact Finset.subset_empty.mp hsub
      have hdefge : (p.1.syms t).required_cell_num ≤ (p.1.syms t).defined_cell_num := by
        rcases rtrans_def_fresh hrt t with ⟨h1, _⟩ | ⟨h1, _⟩
        · rw [h1, hsymh, hreq]; exact ht.1
        · rw [h1, hcc, hreq]; exact hts t
      simp [DataSymbol.is_stale, hdwp, hns, not_lt.mpr hdefge]

theorem staleLoop_spec {u n : Nat} : ∀ {xs : List Nat} {st : SafetyState}
    {seen : List Nat} {q : SafetyState × List Nat}, staleLoop u n xs st seen = some q →
    StaticEq st q.1 ∧ seen ⊆ q.2 := by
  intro xs
  induction xs with
  | nil =>
    intro st seen q h
    simp only [staleLoop, Option.some.injEq] at h
    exact h ▸ ⟨StaticEq.rfl, List.Subset.refl _⟩
  | cons d rest ih =>
    intro st seen q h
    simp only [staleLoop] at h
    obtain ⟨p, hp, hrest⟩ := Option.bind_eq_some.mp h
    obtain ⟨s1, l1⟩ := staleRun_spec hp
    obtain ⟨s2, l2⟩ := ih hrest
    exact ⟨s1.trans s2, fun x hx => l2 (l1 hx)⟩

/-- After `refresh(s)` succeeds, the symbol's staleness fields are
reset: `fresher_ancestors` and `namespace_stale_symbols` are empty and
`defined_cell_num = required_cell_num =` the current cell. -/
theorem refresh_resets {st : SafetyState} {s n : Nat} {st' : SafetyState}
    (h : st.refresh s n = some st') :
    (st'.syms s).fresher_ancestors = ∅ ∧
    (st'.syms s).defined_cell_num = st.cell_counter ∧
    (st'.syms s).required_cell_num = st.cell_counter ∧
    (st'.syms s).namespace_stale_symbols = ∅ := by
  simp only [SafetyState.refresh] at h
  obtain ⟨p, hp, hfst⟩ := Option.map_eq_some'.mp h
  subst hfst
  have hrt := (refreshRun_spec hp).1
  have hcc : p.1.cell_counter = st.cell_counter := (rtrans_cc_eq hrt).symm
  have hreq : (p.1.syms s).required_cell_num = p.1.cell_counter := by
    rw [rtrans_required_eq hrt s]
    simp [SafetyState.modifySym, hcc]
  have hns : (p.1.syms s).namespace_stale_symbols = ∅ := by
    have hsub := rtrans_ns_subset hrt s
    simp only [SafetyState.modifySym_syms_self] at hsub
    exact Finset.subset_empty.mp hsub
  have hdef : (p.1.syms s).defined_cell_num = p.1.cell_counter := by
    rcases rtrans_def_fresh hrt s with ⟨h1, _⟩ | ⟨h1, _⟩
    · rw [h1]; simp [SafetyState.modifySym, hcc]
    · exact h1
  have hfr : (p.1.syms s).fresher_ancestors = ∅ := by
    rcases rtrans_def_fresh hrt s with ⟨_, h2⟩ | ⟨_, h2⟩
    · rw [h2]; simp [SafetyState.modifySym]
    · exact h2
  exact ⟨hfr, hdef.trans hcc, hreq.trans hcc, hns⟩

theorem refresh_staticEq {st : SafetyState} {s n : Nat} {st' : SafetyState}
    (h : st.refresh s n = some st') : StaticEq st st' := by
  simp only [SafetyState.refresh] at h
  obtain ⟨p, hp, hfst⟩ := Option.map_eq_some'.mp h
  subst hfst
  exact (staticEq_modifySym st s (fun q =>
    { q with fresher_ancestors := ∅,
             defined_cell_num := st.cell_counter,
             required_cell_num := st.cell_counter,
             namespace_stale_symbols := ∅ }) (fun _ => rfl) (fun _ => rfl) (fun _ => rfl)
    (fun _ => rfl) (fun _ => rfl)).trans (rtrans_staticEq (refreshRun_spec hp).1)

/-- Core of claim C5: a protocol round invoked with `mutated=true` puts
every current alias of the updated symbol's identity into the
process-wide `updated_symbols` set. -/
theorem updateProtocol_mutated_records_aliases {st : SafetyState} {u fuel : Nat}
    {a : Nat} (ha : a ∈ st.aliases ((st.syms u).obj_id))
    (hsome : (updateProtocol st u true true fuel).isSome = true) :
    ∃ st', updateProtocol st u true true fuel = some st' ∧ a ∈ st'.updated_symbols := by
  obtain ⟨st', heq⟩ := Option.isSome_iff_exists.mp hsome
  refine ⟨st', heq, ?_⟩
  simp only [updateProtocol] at heq
  rw [if_pos ⟨trivial, Or.inl trivial⟩] at heq
  obtain ⟨p1, hc, hrest⟩ := Option.bind_eq_some.mp heq
  obtain ⟨q, hl, hr⟩ := Option.bind_eq_some.mp hrest
  have hc' : collectRun fuel (.outer u (st.aliases ((st.syms u).obj_id))) st [] = some p1 := by
    cases fuel with
    | zero => simp [collectRun] at hc
    | succ n => exact collectRun_mono (by simpa only [collectRun, Bool.not_true,
        Bool.false_eq_true, if_false] using hc)
  have hcov : a ∈ p1.2 := collectRun_outer_covers hc' a ha
  have hq1 : q.1.updated_symbols = p1.1.updated_symbols ∪ p1.2.toFinset :=
    ((staleLoop_spec hl).1.updated_eq).symm
  have hst' : st'.updated_symbols = q.1.updated_symbols := ((refresh_staticEq hr).updated_eq).symm
  rw [hst', hq1]
  exact Finset.mem_union_right _ (List.mem_toFinset.mpr hcov)

/-! ## The claims -/

/-- C1: `is_stale` returns false whenever `disable_warnings` is set, and
otherwise returns true exactly when `defined_cell_num <
required_cell_num` or `namespace_stale_symbols` is non-empty. -/
theorem claim_C1 : ∀ d : DataSymbol, d.is_stale = true ↔
    (d.disable_warnings = false ∧ (d.defined_cell_num < d.required_cell_num ∨
      d.namespace_stale_symbols.Nonempty)) := by
  intro d
  by_cases hdw : d.disable_warnings
  · simp [DataSymbol.is_stale, hdw]
  · simp [DataSymbol.is_stale, hdw, Finset.card_pos]

/-- C2: `should_mark_stale d updatedDep` is false if `d` has warnings
disabled, or `updatedDep` is `d` itself, or the same-unit exemption is
enabled and both were defined in the current evaluation unit; and in the
same-unit scenario (`a`, `b` defined in cell 1, `b` depending on `a`),
after the protocol round for `a` completes, `b` is not stale. -/
theorem claim_C2 :
    (∀ (st : SafetyState) (d u : Nat),
      ((st.syms d).disable_warnings = true ∨ u = d ∨
        (st.no_stale_propagation_for_same_cell_definition = true ∧
          (st.syms d).defined_cell_num = st.cell_counter ∧
          (st.syms u).defined_cell_num = st.cell_counter)) →
      st.should_mark_stale d u = false) ∧
    (updateProtocol sameCellSt 0 false true 20).map (fun s => (s.syms 1).is_stale)
      = some false := by
  constructor
  · intro st d u h
    rcases h with h | h | ⟨hc, hd1, hd2⟩
    · simp [SafetyState.should_mark_stale, h]
    · simp [SafetyState.should_mark_stale, h]
    · simp [SafetyState.should_mark_stale, hc, hd1, hd2]
  · decide

theorem claim_C2_witness :
    sameCellSt.should_mark_stale 0 0 = false ∧
    (updateProtocol sameCellSt 0 false true 20).map (fun s => (s.syms 1).is_stale)
      = some false :=
  ⟨claim_C2.1 sameCellSt 0 0 (Or.inr (Or.inl rfl)), claim_C2.2⟩

/-- C3: cross-unit propagation — after unit 3 re-binds `a`, symbol `b`
is stale and `a` is among its stale reasons
(`fresher_ancestors ∪ namespace_stale_symbols`). -/
theorem claim_C3 :
    (updateProtocol crossUnitSt 0 false true 20).map (fun s =>
      ((s.syms 1).is_stale,
       decide (0 ∈ (s.syms 1).fresher_ancestors ∪ (s.syms 1).namespace_stale_symbols)))
      = some (true, true) := by
  decide

/-- C4: when the propagating symbol `d` is not the symbol that triggered
the round, `_non_class_to_instance_children` never yields a dependency
child reached through a class→instance clone edge (a child whose
namespace was cloned from `d`'s identity); and mutating instance `i1`
leaves sibling instance `i2` fresh in the class/instance scenario. -/
theorem claim_C4 :
    (∀ (st : SafetyState) (u d child : Nat), u ≠ d →
      child ∈ nonClassToInstanceChildren st u d →
      child ∈ (st.syms d).children ∧
      ∀ scId cf, st.namespaces ((st.syms child).obj_id) = some scId →
        (st.scopes scId).cloned_from_obj_id = some cf → cf ≠ (st.syms d).obj_id) ∧
    (updateProtocol classInstanceSt 1 true true 30).map (fun s => (s.syms 2).is_stale)
      = some false := by
  constructor
  · intro st u d child hne hmem
    unfold nonClassToInstanceChildren at hmem
    rw [if_neg hne] at hmem
    obtain ⟨h1, h2⟩ := List.mem_filter.mp hmem
    refine ⟨h1, ?_⟩
    intro scId cf e1 e2
    rw [e1] at h2
    simp only at h2
    rw [e2] at h2
    simp only at h2
    exact of_decide_eq_true h2
  · decide

theorem claim_C4_witness :
    ((1 ∈ (crossUnitSt.syms 0).children ∧
      ∀ scId cf, crossUnitSt.namespaces ((crossUnitSt.syms 1).obj_id) = some scId →
        (crossUnitSt.scopes scId).cloned_from_obj_id = some cf →
        cf ≠ (crossUnitSt.syms 0).obj_id) ∧
     (updateProtocol classInstanceSt 1 true true 30).map (fun s => (s.syms 2).is_stale)
       = some false) :=
  ⟨claim_C4.1 crossUnitSt 5 0 1 (by decide) (by decide), claim_C4.2⟩

/-- C5: a protocol round invoked with `mutated=true` collects every
current alias of the updated symbol's identity and records all of them
in the process-wide `updated_symbols` set. -/
theorem claim_C5 : ∀ (st : SafetyState) (u fuel a : Nat),
    a ∈ st.aliases ((st.syms u).obj_id) →
    (updateProtocol st u true true fuel).isSome = true →
    ∃ st', updateProtocol st u true true fuel = some st' ∧ a ∈ st'.updated_symbols :=
  fun _ _ _ _ ha hs => updateProtocol_mutated_records_aliases ha hs

theorem claim_C5_witness :
    ∃ st', updateProtocol cyclicSt 0 true true 30 = some st' ∧ 0 ∈ st'.updated_symbols :=
  claim_C5 cyclicSt 0 30 0 (by decide) (by decide)

/-- C6: on every finite symbol graph closed under aliasing, dependency
and containment — cyclic ones included — a single Update Protocol
invocation terminates (some fuel makes the fueled run succeed), and a
symbol already in the invocation-scoped seen-set is not processed again
by any traversal role. -/
theorem claim_C6 :
    (∀ (st : SafetyState) (U : Finset Nat) (u : Nat) (mutated : Bool),
      Closed st U → u ∈ U → ∃ n st', updateProtocol st u mutated true n = some st') ∧
    (∀ (u fuel d : Nat) (st : SafetyState) (seen : List Nat), d ∈ seen →
      staleRun u (fuel + 1) (.deps d false) st seen = some (st, seen)) ∧
    (∀ (fuel d : Nat) (st : SafetyState) (seen : List Nat), d ∈ seen →
      refreshRun (fuel + 1) (.node d) st seen = some (st, seen)) ∧
    (∀ (fuel dsym a : Nat) (rest : List Nat) (st : SafetyState) (seen : List Nat),
      a ∈ seen →
      collectRun (fuel + 1) (.outer dsym (a :: rest)) st seen =
        collectRun fuel (.outer dsym rest) st seen) := by
  refine ⟨fun st U u mutated hcl hu => updateProtocol_adequate mutated hcl hu, ?_, ?_, ?_⟩
  · intro u fuel d st seen hd
    show (if false = false ∧ d ∈ seen then some (st, seen) else _) = some (st, seen)
    rw [if_pos ⟨rfl, hd⟩]
  · intro fuel d st seen hd
    show (if d ∈ seen then some (st, seen) else _) = some (st, seen)
    rw [if_pos hd]
  · intro fuel dsym a rest st seen ha
    show (if a ∈ seen then collectRun fuel (.outer dsym rest) st seen else _) = _
    rw [if_pos ha]

theorem claim_C6_witness :
    (∃ n st', updateProtocol cyclicSt 0 true true n = some st') ∧
    staleRun 0 1 (.deps 0 false) cyclicSt [0] = some (cyclicSt, [0]) ∧
    refreshRun 1 (.node 0) cyclicSt [0] = some (cyclicSt, [0]) ∧
    collectRun 1 (.outer 0 [0]) cyclicSt [0] = collectRun 0 (.outer 0 []) cyclicSt [0] :=
  ⟨claim_C6.1 cyclicSt {0} 0 true (by decide) (by decide),
   claim_C6.2.1 0 0 0 cyclicSt [0] (by simp),
   claim_C6.2.2.1 0 0 cyclicSt [0] (by simp),
   claim_C6.2.2.2 0 0 0 [] cyclicSt [0] (by simp)⟩

/-- C7: refresh resets the refreshed symbol's staleness fields (empty
`fresher_ancestors`/`namespace_stale_symbols`, both timestamps at the
current cell), and it heals ancestors — when container `b`'s namespace
holds exactly the member `x`, `b` is stale only because `x` sits in its
`namespace_stale_symbols`, and timestamps are current, refreshing `x`
leaves `b` fresh. -/
theorem claim_C7 :
    (∀ (st : SafetyState) (s n : Nat) (st' : SafetyState), st.refresh s n = some st' →
      (st'.syms s).fresher_ancestors = ∅ ∧
      (st'.syms s).defined_cell_num = st.cell_counter ∧
      (st'.syms s).required_cell_num = st.cell_counter ∧
      (st'.syms s).namespace_stale_symbols = ∅) ∧
    (∀ (st : SafetyState) (b x n : Nat),
      b ≠ x →
      st.aliases ((st.syms x).obj_id) = [x] →
      (st.scopes ((st.syms x).containing_scope)).is_namespace_scope = true →
      st.aliases ((st.scopes ((st.syms x).containing_scope)).obj_id) = [b] →
      st.aliases ((st.syms b).obj_id) = [b] →
      (st.scopes ((st.syms b).containing_scope)).is_namespace_scope = false →
      (st.syms b).namespace_stale_symbols = {x} →
      (st.syms b).required_cell_num ≤ (st.syms b).defined_cell_num →
      (st.syms b).required_cell_num ≤ st.cell_counter →
      (st.refresh x (n + 6)).map (fun s => (s.syms b).is_stale) = some false) := by
  constructor
  · exact fun st s n st' h => refresh_resets h
  intro st b x n hbx H1 H2 H3 H5 H6 H7 H8 H9
  have hxb : x ≠ b := fun h => hbx h.symm
  have hlt1 : ¬ ((st.syms b).defined_cell_num < (st.syms b).required_cell_num) :=
    not_lt.mpr H8
  have hlt2 : ¬ (st.cell_counter < (st.syms b).required_cell_num) := not_lt.mpr H9
  have hcs : (st.syms b).containing_scope ≠ (st.syms x).containing_scope := by
    intro h
    rw [h, H2] at H6
    simp at H6
  simp [SafetyState.refresh, refreshRun, refreshTouch, SafetyState.modifySym,
    SafetyState.modifyScope, DataSymbol.is_stale, H1, H2, H3, H5, H6, H7, H8, H9,
    hbx, hxb, hlt1, hlt2, hcs]

theorem claim_C7_witness :
    ((((containerSt.refresh 2 10).get (by decide)).syms 2).fresher_ancestors = ∅ ∧
     (((containerSt.refresh 2 10).get (by decide)).syms 2).defined_cell_num =
       containerSt.cell_counter ∧
     (((containerSt.refresh 2 10).get (by decide)).syms 2).required_cell_num =
       containerSt.cell_counter ∧
     (((containerSt.refresh 2 10).get (by decide)).syms 2).namespace_stale_symbols = ∅) ∧
    (containerSt.refresh 2 10).map (fun s => (s.syms 1).is_stale) = some false :=
  ⟨claim_C7.1 containerSt 2 10 _ (Option.some_get _).symm,
   claim_C7.2 containerSt 1 2 4 (by decide) (by decide) (by decide) (by decide)
     (by decide) (by decide) (by decide) (by decide) (by decide)⟩

/-- C8: invoking the Update Protocol with `propagate=false` on an
already-updated symbol (same cell counter) a second time leaves the
whole state — in particular every symbol's staleness fields —
unchanged. -/
theorem claim_C8 : ∀ (st : SafetyState) (u n : Nat) (m m' : Bool) (st1 : SafetyState),
    updateProtocol st u m false n = some st1 →
    updateProtocol st1 u m' false n = some st1 :=
  fun _ _ _ m m' _ h => updateProtocol_propagate_false_idem m m' h

theorem claim_C8_witness :
    updateProtocol ((updateProtocol containerSt 2 false false 10).get (by decide))
      2 false false 10 =
      some ((updateProtocol containerSt 2 false false 10).get (by decide)) :=
  claim_C8 containerSt 2 10 false false _ (Option.some_get _).symm

/-- C9: an unresolved right-hand-side name (one the scope lookup cannot
resolve) contributes no dependency edge to
`compute_rval_dependencies`. -/
theorem claim_C9 : ∀ (lookup : String → Option Nat) (cpd : List (Finset Nat))
    (lds : Finset Nat) (name : String) (rest : List (Option String)),
    lookup name = none →
    computeRvalDependencies lookup cpd lds (some name :: rest) =
      computeRvalDependencies lookup cpd lds rest := by
  intro lookup cpd lds name rest h
  simp [computeRvalDependencies, h]

theorem claim_C9_witness :
    computeRvalDependencies (fun _ => none) [] ∅ [some "y"] =
      computeRvalDependencies (fun _ => none) [] ∅ [] :=
  claim_C9 (fun _ => none) [] ∅ "y" [] rfl

/-- C10: refresh never makes any symbol stale — in every state whose
`required_cell_num` timestamps do not exceed the current cell, a symbol
that is fresh before `refresh(s)` is still fresh afterwards. -/
theorem claim_C10 : ∀ (st : SafetyState) (s fuel : Nat) (st' : SafetyState) (t : Nat),
    (∀ i, (st.syms i).required_cell_num ≤ st.cell_counter) →
    st.refresh s fuel = some st' →
    (st.syms t).is_stale = false → (st'.syms t).is_stale = false :=
  fun _ _ _ _ t hts h ht => refresh_preserves_not_stale hts h t ht

theorem claim_C10_witness :
    (((containerSt.refresh 2 10).get (by decide)).syms 0).is_stale = false :=
  claim_C10 containerSt 2 10 _ 0
    (by
      intro i
      by_cases h1 : i = 1
      · subst h1; decide
      · by_cases h2 : i = 2
        · subst h2; decide
        · show (containerSt.syms i).required_cell_num ≤ containerSt.cell_counter
          simp only [containerSt]
          rw [if_neg h1, if_neg h2]
          decide)
    (Option.some_get _).symm (by decide)

end NbSafety

